import Mathlib

/-!
# Verification of the funeral-news-bot feed deduplication bot

A shallow embedding, in Lean 4, of `bot.py`: the URL normalizer
(`urllib.parse.urlparse` / `parse_qsl` / `urlencode` / `urlunparse`,
including percent-encoding over UTF-8 bytes), the SHA-256 identity key,
the exclusion filter, the persisted-state pruning, the Slack notifier
with its single 429 retry, and the run controller, together with
theorems about them.

Strings are embedded as `List Char` (Unicode scalar values, as in
Python `str`); bytes are embedded as `Nat` values below 256.  Machine
words in SHA-256 are `Nat` with explicit reduction modulo `2 ^ 32`.
-/

namespace Bot

/-! ## List splitting primitives (models of `str.find` / slicing idioms) -/

/-- Split a list at the first occurrence of `c`: returns the part before
(not containing `c`) and the part after. -/
def splitFirst (c : Char) : List Char → Option (List Char × List Char)
  | [] => none
  | x :: xs =>
    if x = c then some ([], xs)
    else
      match splitFirst c xs with
      | some (a, b) => some (x :: a, b)
      | none => none

theorem splitFirst_eq_none_iff (c : Char) (l : List Char) :
    splitFirst c l = none ↔ c ∉ l := by
  induction l with
  | nil => simp [splitFirst]
  | cons x xs ih =>
    by_cases hx : x = c
    · simp [splitFirst, hx]
    · cases h : splitFirst c xs with
      | some ab => simp_all [splitFirst, hx, eq_comm]
      | none => simp_all [splitFirst, hx, eq_comm]

theorem splitFirst_eq_some (c : Char) {l a b : List Char}
    (h : splitFirst c l = some (a, b)) : l = a ++ c :: b ∧ c ∉ a := by
  induction l generalizing a b with
  | nil => simp [splitFirst] at h
  | cons x xs ih =>
    by_cases hx : x = c
    · simp [splitFirst, hx] at h
      obtain ⟨rfl, rfl⟩ := h
      simp [hx]
    · simp only [splitFirst, if_neg hx] at h
      cases hxs : splitFirst c xs with
      | some ab =>
        obtain ⟨a', b'⟩ := ab
        rw [hxs] at h
        simp at h
        obtain ⟨rfl, rfl⟩ := h
        obtain ⟨h1, h2⟩ := ih hxs
        constructor
        · simp [h1]
        · intro hc
          rcases List.mem_cons.1 hc with h | h
          · exact hx h.symm
          · exact h2 h
      | none => rw [hxs] at h; simp at h

theorem splitFirst_append_not_mem (c : Char) {a : List Char} (b : List Char)
    (ha : c ∉ a) : splitFirst c (a ++ c :: b) = some (a, b) := by
  induction a with
  | nil => simp [splitFirst]
  | cons x xs ih =>
    have hx : ¬ x = c := by intro h; exact ha (by simp [h])
    have hxs : c ∉ xs := fun h => ha (by simp [h])
    simp [splitFirst, hx, ih hxs]

theorem splitFirst_length (c : Char) {l a b : List Char}
    (h : splitFirst c l = some (a, b)) : b.length < l.length := by
  have := (splitFirst_eq_some c h).1
  subst this
  simp
  omega

/-- Split a list at the last occurrence of `c` (model of `str.rfind`):
returns the part before and the part after, which does not contain `c`. -/
def splitLast (c : Char) (l : List Char) : Option (List Char × List Char) :=
  match splitFirst c l.reverse with
  | some (a, b) => some (b.reverse, a.reverse)
  | none => none

theorem splitLast_eq_none_iff (c : Char) (l : List Char) :
    splitLast c l = none ↔ c ∉ l := by
  unfold splitLast
  cases h : splitFirst c l.reverse with
  | some ab =>
    obtain ⟨x, y⟩ := ab
    have h1 := (splitFirst_eq_some c h).1
    have : c ∈ l := by
      rw [← List.mem_reverse, h1]; simp
    simp [this]
  | none =>
    have := (splitFirst_eq_none_iff c l.reverse).1 h
    simp only [List.mem_reverse] at this
    simp [this]

theorem splitLast_eq_some (c : Char) {l a b : List Char}
    (h : splitLast c l = some (a, b)) : l = a ++ c :: b ∧ c ∉ b := by
  unfold splitLast at h
  cases hr : splitFirst c l.reverse with
  | some ab =>
    obtain ⟨x, y⟩ := ab
    rw [hr] at h
    simp at h
    obtain ⟨rfl, rfl⟩ := h
    obtain ⟨h1, h2⟩ := splitFirst_eq_some c hr
    constructor
    · have := congrArg List.reverse h1
      simpa using this
    · simpa using h2
  | none => rw [hr] at h; simp at h

theorem splitLast_append_not_mem (c : Char) (a : List Char) {b : List Char}
    (hb : c ∉ b) : splitLast c (a ++ c :: b) = some (a, b) := by
  unfold splitLast
  have : (a ++ c :: b).reverse = b.reverse ++ c :: a.reverse := by simp
  rw [this, splitFirst_append_not_mem c a.reverse (by simpa using hb)]
  simp

/-! ## Characters: ASCII lowering and classes -/

theorem toNat_ofNat_valid {n : Nat} (h : n < 0xD800) : (Char.ofNat n).toNat = n := by
  simp [Char.ofNat, Nat.isValidChar, Char.toNat]
  split
  · rfl
  · rename_i hcon
    exact absurd (Or.inl h) hcon

/-- Model of Python `str.lower()` restricted to ASCII case mapping. -/
def asciiLower (c : Char) : Char :=
  if 65 ≤ c.toNat ∧ c.toNat ≤ 90 then Char.ofNat (c.toNat + 32) else c

theorem toNat_inj_char {a b : Char} (h : a.toNat = b.toNat) : a = b := by
  apply Char.ext
  exact UInt32.ext h

theorem asciiLower_toNat (c : Char) :
    (asciiLower c).toNat = if 65 ≤ c.toNat ∧ c.toNat ≤ 90 then c.toNat + 32 else c.toNat := by
  unfold asciiLower
  split
  · rename_i h
    rw [toNat_ofNat_valid (by omega)]
  · rfl

theorem asciiLower_asciiLower (c : Char) :
    asciiLower (asciiLower c) = asciiLower c := by
  apply toNat_inj_char
  rw [asciiLower_toNat, asciiLower_toNat]
  by_cases hP : 65 ≤ c.toNat ∧ c.toNat ≤ 90
  · simp only [if_pos hP]
    rw [if_neg (by omega)]
  · simp only [if_neg hP]

/-- Characters allowed in a URL scheme (`urllib.parse.scheme_chars`). -/
def schemeChar (c : Char) : Bool :=
  c.isAlphanum || c = '+' || c = '-' || c = '.'

theorem isAlpha_iff_toNat (c : Char) :
    c.isAlpha = true ↔ (65 ≤ c.toNat ∧ c.toNat ≤ 90) ∨ (97 ≤ c.toNat ∧ c.toNat ≤ 122) := by
  simp only [Char.isAlpha, Char.isUpper, Char.isLower, Bool.or_eq_true, Bool.and_eq_true,
    decide_eq_true_eq]
  have h1 : ∀ m : UInt32, (c.val ≥ m ↔ m.toNat ≤ c.toNat) := fun m => Iff.rfl
  have h2 : ∀ m : UInt32, (c.val ≤ m ↔ c.toNat ≤ m.toNat) := fun m => Iff.rfl
  rw [h1, h2, h1, h2]
  norm_num

theorem isAlpha_asciiLower {c : Char} (h : c.isAlpha = true) :
    (asciiLower c).isAlpha = true := by
  rw [isAlpha_iff_toNat] at h ⊢
  rw [asciiLower_toNat]
  split <;> omega

theorem isDigit_iff_toNat (c : Char) :
    c.isDigit = true ↔ 48 ≤ c.toNat ∧ c.toNat ≤ 57 := by
  simp only [Char.isDigit, Bool.and_eq_true, decide_eq_true_eq]
  have h1 : ∀ m : UInt32, (c.val ≥ m ↔ m.toNat ≤ c.toNat) := fun m => Iff.rfl
  have h2 : ∀ m : UInt32, (c.val ≤ m ↔ c.toNat ≤ m.toNat) := fun m => Iff.rfl
  rw [h1, h2]
  norm_num

theorem asciiLower_eq_self_of_not_upper {c : Char}
    (h : ¬ (65 ≤ c.toNat ∧ c.toNat ≤ 90)) : asciiLower c = c := by
  unfold asciiLower
  rw [if_neg h]

theorem schemeChar_asciiLower {c : Char} (h : schemeChar c = true) :
    schemeChar (asciiLower c) = true := by
  by_cases hu : 65 ≤ c.toNat ∧ c.toNat ≤ 90
  · have : (asciiLower c).isAlpha = true := by
      apply isAlpha_asciiLower
      rw [isAlpha_iff_toNat]
      omega
    simp [schemeChar, Char.isAlphanum, this]
  · rw [asciiLower_eq_self_of_not_upper hu]
    exact h

theorem asciiLower_eq_of_schemeChar :
    asciiLower ':' = ':' ∧ asciiLower '/' = '/' ∧ asciiLower '#' = '#' ∧
      asciiLower '?' = '?' ∧ asciiLower '&' = '&' ∧ asciiLower '=' = '=' := by
  refine ⟨?_, ?_, ?_, ?_, ?_, ?_⟩ <;> decide

/-! ## UTF-8 (model of Python `str.encode("utf-8")` and `bytes.decode` with replace) -/

/-- UTF-8 encoding of one Unicode scalar value, as big-endian byte `Nat`s. -/
def utf8EncodeChar (c : Char) : List Nat :=
  if c.toNat < 0x80 then [c.toNat]
  else if c.toNat < 0x800 then [0xC0 + c.toNat / 0x40, 0x80 + c.toNat % 0x40]
  else if c.toNat < 0x10000 then
    [0xE0 + c.toNat / 0x1000, 0x80 + (c.toNat / 0x40) % 0x40, 0x80 + c.toNat % 0x40]
  else
    [0xF0 + c.toNat / 0x40000, 0x80 + (c.toNat / 0x1000) % 0x40,
      0x80 + (c.toNat / 0x40) % 0x40, 0x80 + c.toNat % 0x40]

theorem utf8EncodeChar_ne_nil (c : Char) : utf8EncodeChar c ≠ [] := by
  unfold utf8EncodeChar
  split
  · simp
  · split
    · simp
    · split <;> simp

/-- The Unicode replacement character, produced for malformed sequences. -/
def replChar : Char := Char.ofNat 0xFFFD

/-- Decode one UTF-8 sequence whose lead byte is `b` and whose following
bytes begin `rest`; malformed input yields `replChar` and consumes only the
lead byte (model of Python `errors="replace"`). -/
def utf8Step (b : Nat) (rest : List Nat) : Char × List Nat :=
  if b < 0x80 then (Char.ofNat b, rest)
  else if b < 0xC2 then (replChar, rest)
  else if b < 0xE0 then
    match rest with
    | b2 :: r2 =>
      if 0x80 ≤ b2 ∧ b2 < 0xC0 then
        (Char.ofNat ((b - 0xC0) * 0x40 + (b2 - 0x80)), r2)
      else (replChar, b2 :: r2)
    | [] => (replChar, [])
  else if b < 0xF0 then
    match rest with
    | b2 :: b3 :: r3 =>
      if (0x80 ≤ b2 ∧ b2 < 0xC0 ∧ (b = 0xE0 → 0xA0 ≤ b2) ∧ (b = 0xED → b2 < 0xA0)) ∧
          0x80 ≤ b3 ∧ b3 < 0xC0 then
        (Char.ofNat ((b - 0xE0) * 0x1000 + (b2 - 0x80) * 0x40 + (b3 - 0x80)), r3)
      else (replChar, b2 :: b3 :: r3)
    | [b2] => (replChar, [b2])
    | [] => (replChar, [])
  else if b < 0xF5 then
    match rest with
    | b2 :: b3 :: b4 :: r4 =>
      if (0x80 ≤ b2 ∧ b2 < 0xC0 ∧ (b = 0xF0 → 0x90 ≤ b2) ∧ (b = 0xF4 → b2 < 0x90)) ∧
          (0x80 ≤ b3 ∧ b3 < 0xC0) ∧ 0x80 ≤ b4 ∧ b4 < 0xC0 then
        (Char.ofNat ((b - 0xF0) * 0x40000 + (b2 - 0x80) * 0x1000 + (b3 - 0x80) * 0x40 +
          (b4 - 0x80)), r4)
      else (replChar, b2 :: b3 :: b4 :: r4)
    | [b2, b3] => (replChar, [b2, b3])
    | [b2] => (replChar, [b2])
    | [] => (replChar, [])
  else (replChar, rest)

theorem utf8Step_rest_length (b : Nat) (rest : List Nat) :
    (utf8Step b rest).2.length ≤ rest.length := by
  unfold utf8Step
  repeat' split
  all_goals simp_arith

/-- UTF-8 decoding with explicit fuel; the input length is enough fuel,
since every step consumes at least the lead byte. -/
def utf8DecodeAux : Nat → List Nat → List Char
  | _, [] => []
  | 0, _ :: _ => []
  | fuel + 1, b :: rest =>
    (utf8Step b rest).1 :: utf8DecodeAux fuel (utf8Step b rest).2

/-- UTF-8 decoding of a byte sequence with replacement of malformed input. -/
def utf8DecodeReplace (l : List Nat) : List Char := utf8DecodeAux l.length l

theorem utf8DecodeAux_irrel (f1 : Nat) :
    ∀ (f2 : Nat) (l : List Nat), l.length ≤ f1 → l.length ≤ f2 →
      utf8DecodeAux f1 l = utf8DecodeAux f2 l := by
  induction f1 with
  | zero =>
    intro f2 l h1 _
    cases l with
    | nil => cases f2 <;> rfl
    | cons b rest => simp at h1
  | succ g1 ih =>
    intro f2 l h1 h2
    cases l with
    | nil => cases f2 <;> rfl
    | cons b rest =>
      cases f2 with
      | zero => simp at h2
      | succ g2 =>
        unfold utf8DecodeAux
        have hlen := utf8Step_rest_length b rest
        simp only [List.length_cons] at h1 h2
        rw [ih g2 (utf8Step b rest).2 (by omega) (by omega)]

theorem char_valid_ranges (c : Char) :
    c.toNat < 0xD800 ∨ (0xE000 ≤ c.toNat ∧ c.toNat < 0x110000) := by
  have hv := c.valid
  unfold UInt32.isValidChar Nat.isValidChar at hv
  have he : c.toNat = c.val.toNat := rfl
  rcases hv with h | h
  · left
    omega
  · right
    exact ⟨by omega, by omega⟩

theorem utf8DecodeReplace_cons (b : Nat) (l : List Nat) :
    utf8DecodeReplace (b :: l) = (utf8Step b l).1 :: utf8DecodeReplace (utf8Step b l).2 := by
  show (utf8Step b l).1 :: utf8DecodeAux l.length (utf8Step b l).2 =
    (utf8Step b l).1 :: utf8DecodeReplace (utf8Step b l).2
  unfold utf8DecodeReplace
  rw [utf8DecodeAux_irrel l.length (utf8Step b l).2.length (utf8Step b l).2
    (utf8Step_rest_length b l) le_rfl]

/-- A step of decoding consumes exactly a valid encoded character. -/
theorem utf8Step_encodeChar (c : Char) {b : Nat} {tail : List Nat}
    (henc : utf8EncodeChar c = b :: tail) (rest : List Nat) :
    utf8Step b (tail ++ rest) = (c, rest) := by
  have hv := char_valid_ranges c
  have hofnat : Char.ofNat c.toNat = c := Char.ofNat_toNat c
  unfold utf8EncodeChar at henc
  by_cases h1 : c.toNat < 0x80
  · rw [if_pos h1] at henc
    obtain ⟨rfl, rfl⟩ : b = c.toNat ∧ tail = [] := by
      constructor <;> simp_all
    unfold utf8Step
    rw [if_pos h1, hofnat]
    simp
  · by_cases h2 : c.toNat < 0x800
    · rw [if_neg h1, if_pos h2] at henc
      obtain ⟨rfl, rfl⟩ : b = 0xC0 + c.toNat / 0x40 ∧ tail = [0x80 + c.toNat % 0x40] := by
        constructor <;> simp_all
      unfold utf8Step
      have hb : ¬ (0xC0 + c.toNat / 0x40 < 0x80) := by omega
      have hb2 : ¬ (0xC0 + c.toNat / 0x40 < 0xC2) := by
        have : 0x80 ≤ c.toNat := by omega
        have : 2 ≤ c.toNat / 0x40 := by omega
        omega
      have hb3 : 0xC0 + c.toNat / 0x40 < 0xE0 := by
        have : c.toNat / 0x40 < 0x20 := by omega
        omega
      rw [if_neg hb, if_neg hb2, if_pos hb3]
      simp only [List.cons_append, List.nil_append]
      have hcont : 0x80 ≤ 0x80 + c.toNat % 0x40 ∧ 0x80 + c.toNat % 0x40 < 0xC0 := by omega
      rw [if_pos hcont]
      have hval : 0xC0 + c.toNat / 0x40 - 0xC0 = c.toNat / 0x40 := by omega
      have hval2 : 0x80 + c.toNat % 0x40 - 0x80 = c.toNat % 0x40 := by omega
      rw [hval, hval2]
      have : c.toNat / 0x40 * 0x40 + c.toNat % 0x40 = c.toNat := by omega
      rw [this, hofnat]
    · by_cases h3 : c.toNat < 0x10000
      · rw [if_neg h1, if_neg h2, if_pos h3] at henc
        obtain ⟨rfl, rfl⟩ : b = 0xE0 + c.toNat / 0x1000 ∧
            tail = [0x80 + (c.toNat / 0x40) % 0x40, 0x80 + c.toNat % 0x40] := by
          constructor <;> simp_all
        unfold utf8Step
        have hd : c.toNat / 0x1000 < 0x10 := by omega
        have hd1 : 0x800 ≤ c.toNat := by omega
        have hb : ¬ (0xE0 + c.toNat / 0x1000 < 0x80) := by omega
        have hb2 : ¬ (0xE0 + c.toNat / 0x1000 < 0xC2) := by omega
        have hb3 : ¬ (0xE0 + c.toNat / 0x1000 < 0xE0) := by omega
        have hb4 : 0xE0 + c.toNat / 0x1000 < 0xF0 := by omega
        rw [if_neg hb, if_neg hb2, if_neg hb3, if_pos hb4]
        simp only [List.cons_append, List.nil_append]
        have hcond : (0x80 ≤ 0x80 + c.toNat / 0x40 % 0x40 ∧
            0x80 + c.toNat / 0x40 % 0x40 < 0xC0 ∧
            (0xE0 + c.toNat / 0x1000 = 0xE0 → 0xA0 ≤ 0x80 + c.toNat / 0x40 % 0x40) ∧
            (0xE0 + c.toNat / 0x1000 = 0xED → 0x80 + c.toNat / 0x40 % 0x40 < 0xA0)) ∧
            0x80 ≤ 0x80 + c.toNat % 0x40 ∧ 0x80 + c.toNat % 0x40 < 0xC0 := by
          refine ⟨⟨by omega, by omega, ?_, ?_⟩, by omega, by omega⟩
          · intro he
            have : c.toNat / 0x1000 = 0 := by omega
            have : c.toNat < 0x1000 := by omega
            have h08 : 0x800 ≤ c.toNat := by omega
            have : 0x20 ≤ c.toNat / 0x40 := by omega
            omega
          · intro he
            have hdd : c.toNat / 0x1000 = 0xD := by omega
            have hlow : 0xD000 ≤ c.toNat := by omega
            have hhi : c.toNat < 0xE000 := by omega
            have : c.toNat < 0xD800 := by
              rcases hv with h | h
              · exact h
              · omega
            have : c.toNat / 0x40 < 0x360 := by omega
            omega
        rw [if_pos hcond]
        have e1 : 0xE0 + c.toNat / 0x1000 - 0xE0 = c.toNat / 0x1000 := by omega
        have e2 : 0x80 + c.toNat / 0x40 % 0x40 - 0x80 = c.toNat / 0x40 % 0x40 := by omega
        have e3 : 0x80 + c.toNat % 0x40 - 0x80 = c.toNat % 0x40 := by omega
        rw [e1, e2, e3]
        have : c.toNat / 0x1000 * 0x1000 + c.toNat / 0x40 % 0x40 * 0x40 +
            c.toNat % 0x40 = c.toNat := by omega
        rw [this, hofnat]
      · have h4 : c.toNat < 0x110000 := by
          rcases hv with h | h
          · omega
          · exact h.2
        rw [if_neg h1, if_neg h2, if_neg h3] at henc
        obtain ⟨rfl, rfl⟩ : b = 0xF0 + c.toNat / 0x40000 ∧
            tail = [0x80 + (c.toNat / 0x1000) % 0x40, 0x80 + (c.toNat / 0x40) % 0x40,
              0x80 + c.toNat % 0x40] := by
          constructor <;> simp_all
        unfold utf8Step
        have hd : c.toNat / 0x40000 < 5 := by omega
        have hb : ¬ (0xF0 + c.toNat / 0x40000 < 0x80) := by omega
        have hb2 : ¬ (0xF0 + c.toNat / 0x40000 < 0xC2) := by omega
        have hb3 : ¬ (0xF0 + c.toNat / 0x40000 < 0xE0) := by omega
        have hb4 : ¬ (0xF0 + c.toNat / 0x40000 < 0xF0) := by omega
        have hb5 : 0xF0 + c.toNat / 0x40000 < 0xF5 := by omega
        rw [if_neg hb, if_neg hb2, if_neg hb3, if_neg hb4, if_pos hb5]
        simp only [List.cons_append, List.nil_append]
        have hcond : (0x80 ≤ 0x80 + c.toNat / 0x1000 % 0x40 ∧
            0x80 + c.toNat / 0x1000 % 0x40 < 0xC0 ∧
            (0xF0 + c.toNat / 0x40000 = 0xF0 → 0x90 ≤ 0x80 + c.toNat / 0x1000 % 0x40) ∧
            (0xF0 + c.toNat / 0x40000 = 0xF4 → 0x80 + c.toNat / 0x1000 % 0x40 < 0x90)) ∧
            (0x80 ≤ 0x80 + c.toNat / 0x40 % 0x40 ∧ 0x80 + c.toNat / 0x40 % 0x40 < 0xC0) ∧
            0x80 ≤ 0x80 + c.toNat % 0x40 ∧ 0x80 + c.toNat % 0x40 < 0xC0 := by
          refine ⟨⟨by omega, by omega, ?_, ?_⟩, ⟨by omega, by omega⟩, by omega, by omega⟩
          · intro he
            have : c.toNat / 0x40000 = 0 := by omega
            have : c.toNat < 0x40000 := by omega
            have : 0x10 ≤ c.toNat / 0x1000 := by omega
            have : c.toNat / 0x1000 < 0x40 := by omega
            omega
          · intro he
            have : c.toNat / 0x40000 = 4 := by omega
            have : 0x100000 ≤ c.toNat := by omega
            have : 0x100 ≤ c.toNat / 0x1000 := by omega
            have : c.toNat / 0x1000 < 0x110 := by omega
            omega
        rw [if_pos hcond]
        have e1 : 0xF0 + c.toNat / 0x40000 - 0xF0 = c.toNat / 0x40000 := by omega
        have e2 : 0x80 + c.toNat / 0x1000 % 0x40 - 0x80 = c.toNat / 0x1000 % 0x40 := by omega
        have e3 : 0x80 + c.toNat / 0x40 % 0x40 - 0x80 = c.toNat / 0x40 % 0x40 := by omega
        have e4 : 0x80 + c.toNat % 0x40 - 0x80 = c.toNat % 0x40 := by omega
        rw [e1, e2, e3, e4]
        have : c.toNat / 0x40000 * 0x40000 + c.toNat / 0x1000 % 0x40 * 0x1000 +
            c.toNat / 0x40 % 0x40 * 0x40 + c.toNat % 0x40 = c.toNat := by omega
        rw [this, hofnat]

/-- Decoding consumes a valid encoded character and continues. -/
theorem utf8DecodeReplace_encodeChar (c : Char) (rest : List Nat) :
    utf8DecodeReplace (utf8EncodeChar c ++ rest) = c :: utf8DecodeReplace rest := by
  cases henc : utf8EncodeChar c with
  | nil => exact absurd henc (utf8EncodeChar_ne_nil c)
  | cons b tail =>
    have hstep := utf8Step_encodeChar c henc rest
    rw [List.cons_append, utf8DecodeReplace_cons, hstep]

/-- UTF-8 encoding of a whole string. -/
def utf8Encode (l : List Char) : List Nat := l.flatMap utf8EncodeChar

theorem utf8EncodeChar_lt_256 (c : Char) : ∀ b ∈ utf8EncodeChar c, b < 256 := by
  have hv := char_valid_ranges c
  unfold utf8EncodeChar
  split
  · intro b hb
    simp at hb
    omega
  · split
    · intro b hb
      simp at hb
      have : c.toNat / 0x40 < 0x20 := by omega
      rcases hb with h | h <;> omega
    · split
      · intro b hb
        simp at hb
        have : c.toNat / 0x1000 < 0x10 := by omega
        rcases hb with h | h | h <;> omega
      · intro b hb
        simp at hb
        have : c.toNat < 0x110000 := by omega
        have : c.toNat / 0x40000 < 5 := by omega
        rcases hb with h | h | h | h <;> omega

/-! ## Percent encoding (models of `urllib.parse.quote_plus` / `unquote_plus`) -/

/-- Characters never escaped by `urllib.parse.quote` (the always-safe set,
`safe=""` as used by `urlencode`). -/
def safeChar (c : Char) : Bool :=
  c.isAlphanum || c = '_' || c = '.' || c = '-' || c = '~'

def hexDigitUpper (n : Nat) : Char :=
  if n < 10 then Char.ofNat (48 + n) else Char.ofNat (55 + n)

def pctEncodeByte (b : Nat) : List Char :=
  ['%', hexDigitUpper (b / 16), hexDigitUpper (b % 16)]

/-- Model of `urllib.parse.quote_plus` applied to one character. -/
def quoteChar (c : Char) : List Char :=
  if safeChar c then [c]
  else if c = ' ' then ['+']
  else (utf8EncodeChar c).flatMap pctEncodeByte

/-- Model of `urllib.parse.quote_plus` (UTF-8, `safe=""`). -/
def quote_plus (s : List Char) : List Char := s.flatMap quoteChar

/-- Value of a hexadecimal digit character, upper or lower case. -/
def hexVal (c : Char) : Option Nat :=
  if 48 ≤ c.toNat ∧ c.toNat ≤ 57 then some (c.toNat - 48)
  else if 65 ≤ c.toNat ∧ c.toNat ≤ 70 then some (c.toNat - 55)
  else if 97 ≤ c.toNat ∧ c.toNat ≤ 102 then some (c.toNat - 87)
  else none

/-- Process the two characters after a `%`: a valid pair of hex digits
becomes a byte, anything else leaves the `%` literal. -/
def pctStep (rest : List Char) : (Nat ⊕ Char) × List Char :=
  match rest with
  | h1 :: h2 :: r =>
    match hexVal h1, hexVal h2 with
    | some a, some b => (Sum.inl (16 * a + b), r)
    | _, _ => (Sum.inr '%', h1 :: h2 :: r)
  | r => (Sum.inr '%', r)

theorem pctStep_rest_length (rest : List Char) :
    (pctStep rest).2.length ≤ rest.length := by
  unfold pctStep
  repeat' split
  all_goals simp_arith

/-- Percent-scanning with explicit fuel; the input length is enough. -/
def pctTokensAux : Nat → List Char → List (Nat ⊕ Char)
  | _, [] => []
  | 0, _ :: _ => []
  | fuel + 1, c :: rest =>
    if c = '%' then (pctStep rest).1 :: pctTokensAux fuel (pctStep rest).2
    else Sum.inr c :: pctTokensAux fuel rest

/-- Scan a string into percent-decoded bytes and literal characters. -/
def pctTokens (l : List Char) : List (Nat ⊕ Char) := pctTokensAux l.length l

theorem pctTokensAux_irrel (f1 : Nat) :
    ∀ (f2 : Nat) (l : List Char), l.length ≤ f1 → l.length ≤ f2 →
      pctTokensAux f1 l = pctTokensAux f2 l := by
  induction f1 with
  | zero =>
    intro f2 l h1 _
    cases l with
    | nil => cases f2 <;> rfl
    | cons c rest => simp at h1
  | succ g1 ih =>
    intro f2 l h1 h2
    cases l with
    | nil => cases f2 <;> rfl
    | cons c rest =>
      cases f2 with
      | zero => simp at h2
      | succ g2 =>
        unfold pctTokensAux
        have hlen := pctStep_rest_length rest
        simp only [List.length_cons] at h1 h2
        rw [ih g2 (pctStep rest).2 (by omega) (by omega), ih g2 rest (by omega) (by omega)]

/-- Collect the maximal leading run of decoded bytes. -/
def collectBytes : List (Nat ⊕ Char) → List Nat × List (Nat ⊕ Char)
  | [] => ([], [])
  | Sum.inl b :: t => ((collectBytes t).1.cons b, (collectBytes t).2)
  | Sum.inr c :: t => ([], Sum.inr c :: t)

theorem collectBytes_rest_length (t : List (Nat ⊕ Char)) :
    (collectBytes t).2.length ≤ t.length := by
  induction t with
  | nil => simp [collectBytes]
  | cons x t ih =>
    cases x with
    | inl b =>
      simp only [collectBytes, List.length_cons]
      omega
    | inr c => simp [collectBytes]

/-- Group consecutive decoded bytes into maximal runs, to be UTF-8
decoded together (as `urllib.parse.unquote` does). -/
def groupTokens : List (Nat ⊕ Char) → List (List Nat ⊕ Char)
  | [] => []
  | Sum.inr c :: t => Sum.inr c :: groupTokens t
  | Sum.inl b :: t =>
    match groupTokens t with
    | Sum.inl bs :: rest => Sum.inl (b :: bs) :: rest
    | rest => Sum.inl [b] :: rest

/-- Decode a token stream: byte runs are UTF-8 decoded together,
literals pass through. -/
def decodeTokens (t : List (Nat ⊕ Char)) : List Char :=
  (groupTokens t).flatMap (fun g => match g with
    | Sum.inl bs => utf8DecodeReplace bs
    | Sum.inr c => [c])

theorem groupTokens_inl (t : List (Nat ⊕ Char)) :
    ∀ b, groupTokens (Sum.inl b :: t) =
      Sum.inl ((collectBytes t).1.cons b) :: groupTokens (collectBytes t).2 := by
  induction t with
  | nil =>
    intro b
    rfl
  | cons x t ih =>
    intro b
    cases x with
    | inl b2 =>
      show (match groupTokens (Sum.inl b2 :: t) with
        | Sum.inl bs :: rest => Sum.inl (b :: bs) :: rest
        | rest => Sum.inl [b] :: rest) = _
      rw [ih b2]
      simp [collectBytes]
    | inr c =>
      show (match groupTokens (Sum.inr c :: t) with
        | Sum.inl bs :: rest => Sum.inl (b :: bs) :: rest
        | rest => Sum.inl [b] :: rest) = _
      simp [groupTokens, collectBytes]

def plusToSpace (s : List Char) : List Char :=
  s.map (fun c => if c = '+' then ' ' else c)

/-- Model of `urllib.parse.unquote_plus` (UTF-8, `errors="replace"`). -/
def unquote_plus (s : List Char) : List Char := decodeTokens (pctTokens (plusToSpace s))

theorem hexVal_hexDigitUpper {n : Nat} (h : n < 16) :
    hexVal (hexDigitUpper n) = some n := by
  unfold hexDigitUpper hexVal
  by_cases h10 : n < 10
  · rw [if_pos h10, toNat_ofNat_valid (by omega), if_pos (by omega)]
    congr 1
    omega
  · rw [if_neg h10, toNat_ofNat_valid (by omega), if_neg (by omega), if_pos (by omega)]
    congr 1
    omega

theorem hexDigitUpper_isAlphanum {n : Nat} (h : n < 16) :
    (hexDigitUpper n).isAlphanum = true := by
  unfold hexDigitUpper
  by_cases h10 : n < 10
  · rw [if_pos h10]
    simp only [Char.isAlphanum, Bool.or_eq_true]
    right
    rw [isDigit_iff_toNat, toNat_ofNat_valid (by omega)]
    omega
  · rw [if_neg h10]
    simp only [Char.isAlphanum, Bool.or_eq_true]
    left
    rw [isAlpha_iff_toNat, toNat_ofNat_valid (by omega)]
    omega

/-- Every character emitted by `quote_plus` is alphanumeric or one of the
few punctuation marks it can produce. -/
theorem mem_quote_plus {s : List Char} {d : Char} (h : d ∈ quote_plus s) :
    d.isAlphanum = true ∨ d ∈ ['_', '.', '-', '~', '+', '%'] := by
  unfold quote_plus at h
  rw [List.mem_flatMap] at h
  obtain ⟨c, _, hd⟩ := h
  unfold quoteChar at hd
  split at hd
  · rename_i hsafe
    simp at hd
    subst hd
    simp only [safeChar, Bool.or_eq_true, decide_eq_true_eq] at hsafe
    rcases hsafe with ((((h | h) | h) | h) | h)
    · left
      exact h
    · right
      simp [h]
    · right
      simp [h]
    · right
      simp [h]
    · right
      simp [h]
  · split at hd
    · simp at hd
      subst hd
      right
      simp
    · rw [List.mem_flatMap] at hd
      obtain ⟨b, hb, hdb⟩ := hd
      have hb256 := utf8EncodeChar_lt_256 c b hb
      unfold pctEncodeByte at hdb
      simp only [List.mem_cons, List.not_mem_nil, or_false] at hdb
      rcases hdb with h | h | h
      · right
        simp [h]
      · left
        rw [h]
        exact hexDigitUpper_isAlphanum (by omega)
      · left
        rw [h]
        exact hexDigitUpper_isAlphanum (by omega)

/-! ## The percent-encoding round trip -/

theorem safeChar_ne {c : Char} (h : safeChar c = true) : c ≠ '%' ∧ c ≠ '+' := by
  constructor <;> intro hc <;> rw [hc] at h <;> exact absurd h (by decide)

theorem pctTokens_nil : pctTokens [] = [] := by
  rfl

theorem pctTokens_cons (c : Char) (rest : List Char) :
    pctTokens (c :: rest) =
      if c = '%' then (pctStep rest).1 :: pctTokens (pctStep rest).2
      else Sum.inr c :: pctTokens rest := by
  show (if c = '%' then (pctStep rest).1 :: pctTokensAux rest.length (pctStep rest).2
      else Sum.inr c :: pctTokensAux rest.length rest) = _
  unfold pctTokens
  by_cases hc : c = '%'
  · rw [if_pos hc, if_pos hc, pctTokensAux_irrel rest.length (pctStep rest).2.length
      (pctStep rest).2 (pctStep_rest_length rest) le_rfl]
  · rw [if_neg hc, if_neg hc]

theorem pctTokens_cons_lit {c : Char} (hc : c ≠ '%') (rest : List Char) :
    pctTokens (c :: rest) = Sum.inr c :: pctTokens rest := by
  rw [pctTokens_cons, if_neg hc]

theorem pctTokens_pctEncodeByte {b : Nat} (hb : b < 256) (rest : List Char) :
    pctTokens (pctEncodeByte b ++ rest) = Sum.inl b :: pctTokens rest := by
  unfold pctEncodeByte
  simp only [List.cons_append, List.nil_append]
  rw [pctTokens_cons, if_pos rfl]
  have hstep : pctStep (hexDigitUpper (b / 16) :: hexDigitUpper (b % 16) :: rest) =
      (Sum.inl b, rest) := by
    simp only [pctStep]
    rw [hexVal_hexDigitUpper (show b / 16 < 16 by omega),
      hexVal_hexDigitUpper (show b % 16 < 16 by omega)]
    simp only
    have hb16 : 16 * (b / 16) + b % 16 = b := by omega
    rw [hb16]
  rw [hstep]

theorem pctTokens_flatMap_enc (bs : List Nat) (hbs : ∀ b ∈ bs, b < 256)
    (rest : List Char) :
    pctTokens (bs.flatMap pctEncodeByte ++ rest) = bs.map Sum.inl ++ pctTokens rest := by
  induction bs with
  | nil => simp
  | cons b bs ih =>
    simp only [List.flatMap_cons, List.map_cons, List.append_assoc, List.cons_append]
    rw [pctTokens_pctEncodeByte (hbs b (by simp)), ih (fun x hx => hbs x (by simp [hx]))]

theorem collectBytes_map_inl_append (bs : List Nat) (t : List (Nat ⊕ Char)) :
    collectBytes (bs.map Sum.inl ++ t) = (bs ++ (collectBytes t).1, (collectBytes t).2) := by
  induction bs with
  | nil => simp
  | cons b bs ih => simp [collectBytes, ih]

theorem decodeTokens_nil : decodeTokens [] = [] := by
  rfl

theorem decodeTokens_inr (c : Char) (t : List (Nat ⊕ Char)) :
    decodeTokens (Sum.inr c :: t) = c :: decodeTokens t := by
  unfold decodeTokens
  show ((Sum.inr c :: groupTokens t).flatMap _) = _
  simp

theorem decodeTokens_inl (b : Nat) (t : List (Nat ⊕ Char)) :
    decodeTokens (Sum.inl b :: t) =
      utf8DecodeReplace ((collectBytes t).1.cons b) ++ decodeTokens (collectBytes t).2 := by
  unfold decodeTokens
  rw [groupTokens_inl]
  simp

theorem decodeTokens_collect (t : List (Nat ⊕ Char)) :
    utf8DecodeReplace (collectBytes t).1 ++ decodeTokens (collectBytes t).2 =
      decodeTokens t := by
  cases t with
  | nil => simp [collectBytes, decodeTokens_nil, utf8DecodeReplace, utf8DecodeAux]
  | cons x t =>
    cases x with
    | inl b =>
      simp only [collectBytes]
      rw [decodeTokens_inl]
    | inr c =>
      simp only [collectBytes]
      have : utf8DecodeReplace [] = [] := rfl
      rw [this]
      simp

theorem decodeTokens_map_inl_enc (c : Char) (t : List (Nat ⊕ Char)) :
    decodeTokens ((utf8EncodeChar c).map Sum.inl ++ t) = c :: decodeTokens t := by
  cases henc : utf8EncodeChar c with
  | nil => exact absurd henc (utf8EncodeChar_ne_nil c)
  | cons b tail =>
    simp only [List.map_cons, List.cons_append]
    rw [decodeTokens_inl, collectBytes_map_inl_append]
    simp only
    have : (tail ++ (collectBytes t).1).cons b = (b :: tail) ++ (collectBytes t).1 := by
      simp
    rw [this, ← henc, utf8DecodeReplace_encodeChar, List.cons_append, decodeTokens_collect]

theorem plusToSpace_append (a b : List Char) :
    plusToSpace (a ++ b) = plusToSpace a ++ plusToSpace b := by
  simp [plusToSpace]

theorem plusToSpace_eq_self {l : List Char} (h : '+' ∉ l) : plusToSpace l = l := by
  unfold plusToSpace
  induction l with
  | nil => simp
  | cons c t ih =>
    have hc : ¬ c = '+' := fun hc => h (by simp [hc])
    simp only [List.map_cons, if_neg hc]
    rw [ih (fun ht => h (by simp [ht]))]

theorem plus_not_mem_pct (c : Char) :
    '+' ∉ (utf8EncodeChar c).flatMap pctEncodeByte := by
  intro hmem
  rw [List.mem_flatMap] at hmem
  obtain ⟨b, hb, hpb⟩ := hmem
  have hb256 := utf8EncodeChar_lt_256 c b hb
  unfold pctEncodeByte at hpb
  simp only [List.mem_cons, List.not_mem_nil, or_false] at hpb
  rcases hpb with h | h | h
  · exact absurd h.symm (by decide)
  · have := @hexDigitUpper_isAlphanum (b / 16) (by omega)
    rw [← h] at this
    exact absurd this (by decide)
  · have := @hexDigitUpper_isAlphanum (b % 16) (by omega)
    rw [← h] at this
    exact absurd this (by decide)

theorem plusToSpace_quoteChar (c : Char) :
    plusToSpace (quoteChar c) =
      if safeChar c then [c]
      else if c = ' ' then [' ']
      else (utf8EncodeChar c).flatMap pctEncodeByte := by
  unfold quoteChar
  split
  · rename_i hs
    have := (safeChar_ne hs).2
    simp [plusToSpace, this]
  · split
    · simp [plusToSpace]
    · exact plusToSpace_eq_self (plus_not_mem_pct c)

/-- `unquote_plus` inverts `quote_plus`. -/
theorem unquote_plus_quote_plus (s : List Char) : unquote_plus (quote_plus s) = s := by
  induction s with
  | nil => simp [unquote_plus, quote_plus, plusToSpace, pctTokens_nil, decodeTokens_nil]
  | cons c s ih =>
    unfold unquote_plus quote_plus at ih ⊢
    simp only [List.flatMap_cons, plusToSpace_append]
    rw [plusToSpace_quoteChar]
    by_cases hs : safeChar c = true
    · rw [if_pos hs]
      have hc := (safeChar_ne hs).1
      simp only [List.cons_append, List.nil_append]
      rw [pctTokens_cons_lit hc, decodeTokens_inr, ih]
    · rw [if_neg hs]
      by_cases hsp : c = ' '
      · rw [if_pos hsp]
        simp only [List.cons_append, List.nil_append]
        rw [pctTokens_cons_lit (by decide), decodeTokens_inr, ih, hsp]
      · rw [if_neg hsp]
        rw [pctTokens_flatMap_enc _ (utf8EncodeChar_lt_256 c),
          decodeTokens_map_inl_enc, ih]

/-! ## Query strings: `parse_qsl` (with `keep_blank_values=True`) and `urlencode` -/

/-- Split on every occurrence of `&` (model of `str.split("&")`). -/
def splitAmp : List Char → List (List Char)
  | [] => [[]]
  | c :: rest =>
    if c = '&' then [] :: splitAmp rest
    else
      match splitAmp rest with
      | p :: ps => (c :: p) :: ps
      | [] => [[c]]

theorem splitAmp_eq_of_none {l : List Char} (h : splitFirst '&' l = none) :
    splitAmp l = [l] := by
  induction l with
  | nil => rfl
  | cons c rest ih =>
    unfold splitFirst at h
    split at h
    · cases h
    · rename_i hc
      cases hm : splitFirst '&' rest with
      | some ab => rw [hm] at h; cases h
      | none =>
        unfold splitAmp
        rw [if_neg hc, ih hm]

theorem splitAmp_append_amp {a : List Char} (b : List Char) (hna : '&' ∉ a) :
    splitAmp (a ++ '&' :: b) = a :: splitAmp b := by
  induction a with
  | nil =>
    simp only [List.nil_append]
    conv_lhs => rw [splitAmp]
    rw [if_pos rfl]
  | cons c a ih =>
    have hc : ¬ c = '&' := fun hc => hna (by simp [hc])
    have ha : '&' ∉ a := fun hm => hna (by simp [hm])
    simp only [List.cons_append]
    conv_lhs => rw [splitAmp]
    rw [if_neg hc, ih ha]

theorem splitAmp_eq_of_some {l a b : List Char} (h : splitFirst '&' l = some (a, b)) :
    splitAmp l = a :: splitAmp b := by
  obtain ⟨hl, hna⟩ := splitFirst_eq_some '&' h
  subst hl
  exact splitAmp_append_amp b hna

/-- One `name=value` piece of a query string, as handled by `parse_qsl`
with `keep_blank_values=True`: empty pieces are dropped, a piece without
`=` becomes a name with blank value. -/
def parsePiece (piece : List Char) : Option (List Char × List Char) :=
  if piece.isEmpty then none
  else
    match splitFirst '=' piece with
    | some (a, b) => some (unquote_plus a, unquote_plus b)
    | none => some (unquote_plus piece, unquote_plus [])

/-- Model of `urllib.parse.parse_qsl(qs, keep_blank_values=True)`. -/
def parse_qsl (qs : List Char) : List (List Char × List Char) :=
  (splitAmp qs).filterMap parsePiece

/-- Model of `"&".join`. -/
def ampJoin : List (List Char) → List Char
  | [] => []
  | [x] => x
  | x :: y :: xs => x ++ '&' :: ampJoin (y :: xs)

/-- Model of `urllib.parse.urlencode` (default `quote_via=quote_plus`). -/
def urlencode (q : List (List Char × List Char)) : List Char :=
  ampJoin (q.map (fun kv => quote_plus kv.1 ++ '=' :: quote_plus kv.2))

theorem mem_quote_plus_excl {s : List Char} {d : Char} (h : d ∈ quote_plus s)
    (h1 : d.isAlphanum = false) (h2 : d ∉ (['_', '.', '-', '~', '+', '%'] : List Char)) :
    False := by
  rcases mem_quote_plus h with h3 | h3
  · rw [h1] at h3
    cases h3
  · exact h2 h3

theorem splitAmp_ampJoin {xs : List (List Char)} (hne : xs ≠ [])
    (hfree : ∀ x ∈ xs, '&' ∉ x) : splitAmp (ampJoin xs) = xs := by
  induction xs with
  | nil => exact absurd rfl hne
  | cons x ys ih =>
    cases ys with
    | nil =>
      unfold ampJoin
      exact splitAmp_eq_of_none ((splitFirst_eq_none_iff '&' x).2 (hfree x (by simp)))
    | cons y rest =>
      unfold ampJoin
      rw [splitAmp_eq_of_some
        (splitFirst_append_not_mem '&' (ampJoin (y :: rest)) (hfree x (by simp)))]
      rw [ih (by simp) (fun z hz => hfree z (by simp [hz]))]

theorem parsePiece_encoded (p : List Char × List Char) :
    parsePiece (quote_plus p.1 ++ '=' :: quote_plus p.2) = some p := by
  unfold parsePiece
  have hne : ¬ (quote_plus p.1 ++ '=' :: quote_plus p.2).isEmpty = true := by
    simp
  rw [if_neg hne]
  have heq : ('=' : Char) ∉ quote_plus p.1 := by
    intro hmem
    exact mem_quote_plus_excl hmem (by decide) (by decide)
  rw [splitFirst_append_not_mem '=' _ heq]
  simp only [unquote_plus_quote_plus]

/-- `parse_qsl` inverts `urlencode`: the encoded parameter list round-trips,
preserving order and blank values. -/
theorem parse_qsl_urlencode (q : List (List Char × List Char)) :
    parse_qsl (urlencode q) = q := by
  cases q with
  | nil =>
    unfold urlencode parse_qsl
    simp only [List.map_nil]
    rw [show ampJoin [] = [] from rfl]
    rw [splitAmp_eq_of_none ((splitFirst_eq_none_iff '&' []).2 (by simp))]
    simp [parsePiece]
  | cons kv rest =>
    unfold urlencode parse_qsl
    rw [splitAmp_ampJoin (by simp)]
    · induction (kv :: rest) with
      | nil => simp
      | cons a as ih =>
        simp only [List.map_cons, List.filterMap_cons]
        rw [parsePiece_encoded a]
        rw [ih]
    · intro x hx
      rw [List.mem_map] at hx
      obtain ⟨p, _, hpx⟩ := hx
      intro hmem
      rw [← hpx] at hmem
      rcases List.mem_append.1 hmem with h | h
      · exact mem_quote_plus_excl h (by decide) (by decide)
      · rcases List.mem_cons.1 h with h | h
        · cases h
        · exact mem_quote_plus_excl h (by decide) (by decide)

/-! ## URL parsing (models of `urllib.parse.urlparse` / `urlunparse`) -/

structure UrlParts where
  scheme : List Char
  netloc : List Char
  path : List Char
  params : List Char
  query : List Char
  fragment : List Char
deriving DecidableEq

/-- Validity of a candidate scheme: nonempty, ASCII-alphabetic first
character, all characters in `scheme_chars`. -/
def schemeOk : List Char → Bool
  | [] => false
  | c :: rest => c.isAlpha && (c :: rest).all schemeChar

def netlocChar (c : Char) : Bool :=
  decide (c ≠ '/') && decide (c ≠ '?') && decide (c ≠ '#')

/-- The scheme-extraction step of `urlsplit`. -/
def schemeSplit (url : List Char) : List Char × List Char :=
  match splitFirst ':' url with
  | some (a, b) =>
    if schemeOk a then (a.map asciiLower, b) else (([] : List Char), url)
  | none => (([] : List Char), url)

/-- The netloc-extraction step of `urlsplit` (`_splitnetloc`). -/
def netlocSplit (u1 : List Char) : List Char × List Char :=
  match u1 with
  | '/' :: '/' :: rest => (rest.takeWhile netlocChar, rest.dropWhile netlocChar)
  | _ => (([] : List Char), u1)

/-- The fragment-extraction step of `urlsplit`. -/
def fragSplit (u2 : List Char) : List Char × List Char :=
  match splitFirst '#' u2 with
  | some (a, b) => (a, b)
  | none => (u2, ([] : List Char))

/-- The query-extraction step of `urlsplit`. -/
def querySplit (u3 : List Char) : List Char × List Char :=
  match splitFirst '?' u3 with
  | some (a, b) => (a, b)
  | none => (u3, ([] : List Char))

/-- Model of `urllib.parse.urlsplit` (no params separation). -/
def pyUrlsplit (url : List Char) : UrlParts :=
  let sp := schemeSplit url
  let np := netlocSplit sp.2
  let ff := fragSplit np.2
  let pq := querySplit ff.1
  ⟨sp.1, np.1, pq.1, [], pq.2, ff.2⟩

/-- Model of `urllib.parse._splitparams` guarded by the `';' in url` test
done by `urlparse`. -/
def splitparams (p : List Char) : List Char × List Char :=
  if ';' ∈ p then
    match splitLast '/' p with
    | some (bl, ls) =>
      match splitFirst ';' ls with
      | some (x, y) => (bl ++ '/' :: x, y)
      | none => (p, [])
    | none =>
      match splitFirst ';' p with
      | some (x, y) => (x, y)
      | none => (p, [])
  else (p, [])

/-- Model of `urllib.parse.urlparse`. -/
def pyUrlparse (url : List Char) : UrlParts :=
  let s := pyUrlsplit url
  let pp := splitparams s.path
  ⟨s.scheme, s.netloc, pp.1, pp.2, s.query, s.fragment⟩

/-- The netloc-reattachment step of `urlunsplit`. -/
def urlAddNetloc (n u : List Char) : List Char :=
  if n ≠ [] ∨ u.take 2 = ['/', '/'] then
    '/' :: '/' :: (n ++ (if u ≠ [] ∧ u.head? ≠ some '/' then '/' :: u else u))
  else u

def urlAddScheme (s u : List Char) : List Char := if s ≠ [] then s ++ ':' :: u else u

def urlAddQuery (u q : List Char) : List Char := if q ≠ [] then u ++ '?' :: q else u

def urlAddFrag (u f : List Char) : List Char := if f ≠ [] then u ++ '#' :: f else u

/-- Model of `urllib.parse.urlunsplit`. -/
def pyUrlunsplit (s n u q f : List Char) : List Char :=
  urlAddFrag (urlAddQuery (urlAddScheme s (urlAddNetloc n u)) q) f

/-- The params-reattachment step of `urlunparse`. -/
def rejoinParams (u par : List Char) : List Char :=
  if par ≠ [] then u ++ ';' :: par else u

/-- Model of `urllib.parse.urlunparse`. -/
def pyUrlunparse (s n u par q f : List Char) : List Char :=
  pyUrlunsplit s n (rejoinParams u par) q f

/-! ## The URL normalizer of `bot.py` -/

def lowerList (l : List Char) : List Char := l.map asciiLower

/-- A tracking query parameter key: `utm_*`, `fbclid`, or `gclid`,
case-insensitively (`bot.py`, `normalize_url`). -/
def trackingKey (k : List Char) : Bool :=
  "utm_".data.isPrefixOf (lowerList k) || lowerList k = "fbclid".data ||
    lowerList k = "gclid".data

/-- `normalize_url` of `bot.py`, on character lists. -/
def normalizeList (url : List Char) : List Char :=
  let u := pyUrlparse url
  let q := (parse_qsl u.query).filter (fun kv => ! trackingKey kv.1)
  pyUrlunparse u.scheme u.netloc u.path u.params (urlencode q) u.fragment

/-- `normalize_url` of `bot.py`. -/
def normalize_url (url : String) : String := ⟨normalizeList url.data⟩

/-! ## Parse–unparse round trip -/

theorem splitFirst_append_left (c : Char) {p a b : List Char} (t : List Char)
    (h : splitFirst c p = some (a, b)) : splitFirst c (p ++ t) = some (a, b ++ t) := by
  obtain ⟨hp, hna⟩ := splitFirst_eq_some c h
  subst hp
  have : a ++ c :: b ++ t = a ++ c :: (b ++ t) := by simp
  rw [this, splitFirst_append_not_mem c _ hna]

theorem splitFirst_append_right (c : Char) {p : List Char} (t : List Char) (hp : c ∉ p) :
    splitFirst c (p ++ t) =
      match splitFirst c t with
      | some (a, b) => some (p ++ a, b)
      | none => none := by
  induction p with
  | nil =>
    simp only [List.nil_append]
    cases h : splitFirst c t <;> simp
  | cons x xs ih =>
    have hx : ¬ x = c := fun hc => hp (by simp [hc])
    have hxs : c ∉ xs := fun hm => hp (by simp [hm])
    simp only [List.cons_append]
    conv_lhs => rw [splitFirst]
    rw [if_neg hx, ih hxs]
    cases h : splitFirst c t <;> simp

theorem schemeOk_all {a : List Char} (h : schemeOk a = true) :
    ∀ c ∈ a, schemeChar c = true := by
  cases a with
  | nil => cases h
  | cons x xs =>
    simp only [schemeOk, Bool.and_eq_true, List.all_eq_true] at h
    exact fun c hc => h.2 c hc

theorem schemeOk_head {a : List Char} (h : schemeOk a = true) :
    ∀ c, a.head? = some c → c.isAlpha = true := by
  cases a with
  | nil => cases h
  | cons x xs =>
    simp only [schemeOk, Bool.and_eq_true] at h
    intro c hc
    simp only [List.head?_cons, Option.some_inj] at hc
    rw [← hc]
    exact h.1

theorem schemeOk_eq_false_of_mem {a : List Char} {c0 : Char} (hmem : c0 ∈ a)
    (hbad : ¬ schemeChar c0 = true) : schemeOk a = false := by
  cases hok : schemeOk a
  · rfl
  · exact absurd (schemeOk_all hok c0 hmem) hbad

theorem schemeOk_eq_false_of_head {a : List Char} {c0 : Char} (hhead : a.head? = some c0)
    (hbad : ¬ c0.isAlpha = true) : schemeOk a = false := by
  cases hok : schemeOk a
  · rfl
  · exact absurd (schemeOk_head hok c0 hhead) hbad

theorem colon_not_mem_of_schemeOk {a : List Char} (h : schemeOk a = true) :
    ':' ∉ a := by
  intro hmem
  have := schemeOk_all h ':' hmem
  exact absurd this (by decide)

theorem takeWhile_append_all {p : Char → Bool} {n : List Char} (t : List Char)
    (h : ∀ c ∈ n, p c = true) :
    (n ++ t).takeWhile p = n ++ t.takeWhile p ∧ (n ++ t).dropWhile p = t.dropWhile p := by
  induction n with
  | nil => simp
  | cons x xs ih =>
    have hx : p x = true := h x (by simp)
    have hxs : ∀ c ∈ xs, p c = true := fun c hc => h c (by simp [hc])
    obtain ⟨ih1, ih2⟩ := ih hxs
    constructor
    · simp only [List.cons_append, List.takeWhile_cons, hx, if_true, ih1]
    · simp only [List.cons_append, List.dropWhile_cons, hx, if_true, ih2]

theorem takeWhile_eq_nil_of_head {p : Char → Bool} {t : List Char}
    (h : ∀ c, t.head? = some c → p c = false) :
    t.takeWhile p = [] ∧ t.dropWhile p = t := by
  cases t with
  | nil => simp
  | cons x xs =>
    have hx : p x = false := h x rfl
    simp [List.takeWhile_cons, List.dropWhile_cons, hx]

/-- No prefix of `p` ending at its first colon is a valid scheme. -/
def noSchemeColon (p : List Char) : Prop :=
  ∀ a b, splitFirst ':' p = some (a, b) → schemeOk a = false

theorem netlocSplit_eq_self {rest : List Char} (h : rest.take 2 ≠ ['/', '/']) :
    netlocSplit rest = ([], rest) := by
  unfold netlocSplit
  split
  · exact absurd rfl h
  · rfl

theorem schemeSplit_of_scheme {s : List Char} (rest : List Char)
    (hok : schemeOk s = true) (hlow : s.map asciiLower = s) :
    schemeSplit (s ++ ':' :: rest) = (s, rest) := by
  unfold schemeSplit
  rw [splitFirst_append_not_mem ':' rest (colon_not_mem_of_schemeOk hok)]
  simp only
  rw [if_pos hok, hlow]

theorem schemeSplit_eq_self {u : List Char}
    (h : ∀ a b, splitFirst ':' u = some (a, b) → schemeOk a = false) :
    schemeSplit u = ([], u) := by
  unfold schemeSplit
  cases hc : splitFirst ':' u with
  | none => rfl
  | some ab =>
    obtain ⟨a, b⟩ := ab
    simp only
    rw [h a b hc]
    simp

/-- Round trip at the `urlsplit` level: re-parsing an unsplit URL built
from parser-produced components recovers them exactly. -/
theorem unsplit_split (s n P q f : List Char)
    (hs : s = [] ∨ (schemeOk s = true ∧ s.map asciiLower = s))
    (hn : ∀ c ∈ n, netlocChar c = true)
    (hP1 : '#' ∉ P) (hP2 : '?' ∉ P)
    (hq1 : '#' ∉ q)
    (hnp : n ≠ [] → P = [] ∨ P.head? = some '/')
    (hcf : s = [] → noSchemeColon P) :
    pyUrlsplit (pyUrlunsplit s n P q f) = ⟨s, n, P, [], q, f⟩ := by
  set qp : List Char := if q ≠ [] then '?' :: q else [] with hqpdef
  set fp : List Char := if f ≠ [] then '#' :: f else [] with hfpdef
  set u1 : List Char := if n ≠ [] ∨ P.take 2 = ['/', '/'] then '/' :: '/' :: (n ++ P) else P
    with hu1def
  -- shape of the tail after the path
  have hqtshape : qp ++ fp = [] ∨ (∃ t, qp ++ fp = '?' :: t) ∨ ∃ t, qp ++ fp = '#' :: t := by
    by_cases hqe : q ≠ []
    · right
      left
      exact ⟨q ++ fp, by rw [hqpdef, if_pos hqe]; simp⟩
    · by_cases hfe : f ≠ []
      · right
        right
        exact ⟨f, by rw [hqpdef, hfpdef, if_neg hqe, if_pos hfe]; simp⟩
      · left
        rw [hqpdef, hfpdef, if_neg hqe, if_neg hfe]
        rfl
  have hqpfree : '#' ∉ qp := by
    rw [hqpdef]
    by_cases hqe : q ≠ []
    · rw [if_pos hqe]
      intro hmem
      rcases List.mem_cons.1 hmem with h | h
      · cases h
      · exact hq1 h
    · rw [if_neg hqe]
      simp
  -- head of the path when the netloc branch is taken
  have hcondHead : (n ≠ [] ∨ P.take 2 = ['/', '/']) → P = [] ∨ P.head? = some '/' := by
    intro hb
    rcases hb with hb | hb
    · exact hnp hb
    · cases P with
      | nil =>
        left
        rfl
      | cons c cs =>
        right
        cases cs with
        | nil => simp at hb
        | cons d ds =>
          simp [List.take] at hb
          simp [hb.1]
  -- the reattachment of the netloc never prepends a slash here
  have hu1eq : urlAddNetloc n P = u1 := by
    unfold urlAddNetloc
    rw [hu1def]
    by_cases hb : n ≠ [] ∨ P.take 2 = ['/', '/']
    · rw [if_pos hb, if_pos hb, if_neg]
      rintro ⟨hPne, hPh⟩
      rcases hcondHead hb with h | h
      · exact hPne h
      · exact hPh h
    · rw [if_neg hb, if_neg hb]
  -- query and fragment reattachment is plain concatenation
  have hqf : ∀ Y : List Char, urlAddFrag (urlAddQuery Y q) f = Y ++ (qp ++ fp) := by
    intro Y
    unfold urlAddQuery urlAddFrag
    rw [hqpdef, hfpdef]
    by_cases hqe : q ≠ [] <;> by_cases hfe : f ≠ [] <;> simp [hqe, hfe]
  -- scheme stage
  have hsch : schemeSplit (urlAddScheme s u1 ++ (qp ++ fp)) = (s, u1 ++ (qp ++ fp)) := by
    rcases hs with hse | ⟨hok, hlow⟩
    · have hadd : urlAddScheme s u1 = u1 := by
        unfold urlAddScheme
        rw [if_neg (by rw [hse]; simp)]
      rw [hadd, hse]
      apply schemeSplit_eq_self
      intro a b hab
      by_cases hb : n ≠ [] ∨ P.take 2 = ['/', '/']
      · rw [hu1def, if_pos hb] at hab
        obtain ⟨heq, hna⟩ := splitFirst_eq_some ':' hab
        cases a with
        | nil =>
          simp at heq
        | cons a0 atl =>
          have ha0 : a0 = '/' := by
            have := congrArg List.head? heq
            simp at this
            exact this.symm
          refine @schemeOk_eq_false_of_head (a0 :: atl) a0 rfl ?_
          rw [ha0]
          decide
      · rw [hu1def, if_neg hb] at hab
        cases hcP : splitFirst ':' P with
        | some apbp =>
          obtain ⟨aP, bP⟩ := apbp
          rw [splitFirst_append_left ':' (qp ++ fp) hcP] at hab
          injection hab with hab2
          injection hab2 with hab3 hab4
          rw [← hab3]
          exact hcf hse aP bP hcP
        | none =>
          rw [splitFirst_append_right ':' (qp ++ fp)
            ((splitFirst_eq_none_iff ':' P).1 hcP)] at hab
          cases hcT : splitFirst ':' (qp ++ fp) with
          | none =>
            rw [hcT] at hab
            cases hab
          | some aTbT =>
            obtain ⟨aT, bT⟩ := aTbT
            rw [hcT] at hab
            simp only at hab
            injection hab with hab2
            injection hab2 with hab3 hab4
            obtain ⟨heqT, hnaT⟩ := splitFirst_eq_some ':' hcT
            rcases hqtshape with hqt0 | ⟨t, hqt1⟩ | ⟨t, hqt1⟩
            · rw [hqt0] at hcT
              cases hcT
            · cases aT with
              | nil =>
                rw [hqt1] at heqT
                simp at heqT
              | cons t0 ttl =>
                have ht0 : t0 = '?' := by
                  rw [hqt1] at heqT
                  have := congrArg List.head? heqT
                  simp at this
                  exact this.symm
                refine @schemeOk_eq_false_of_mem a '?' ?_ (by decide)
                rw [← hab3, ← ht0]
                simp
            · cases aT with
              | nil =>
                rw [hqt1] at heqT
                simp at heqT
              | cons t0 ttl =>
                have ht0 : t0 = '#' := by
                  rw [hqt1] at heqT
                  have := congrArg List.head? heqT
                  simp at this
                  exact this.symm
                refine @schemeOk_eq_false_of_mem a '#' ?_ (by decide)
                rw [← hab3, ← ht0]
                simp
    · have hsne : s ≠ [] := by
        intro h0
        rw [h0] at hok
        cases hok
      have hadd : urlAddScheme s u1 = s ++ ':' :: u1 := by
        unfold urlAddScheme
        rw [if_pos hsne]
      rw [hadd]
      have hassoc : (s ++ ':' :: u1) ++ (qp ++ fp) = s ++ ':' :: (u1 ++ (qp ++ fp)) := by
        simp
      rw [hassoc]
      exact schemeSplit_of_scheme _ hok hlow
  -- netloc stage
  have hnet : netlocSplit (u1 ++ (qp ++ fp)) = (n, P ++ (qp ++ fp)) := by
    by_cases hb : n ≠ [] ∨ P.take 2 = ['/', '/']
    · rw [hu1def, if_pos hb]
      have hassoc : ('/' :: '/' :: (n ++ P)) ++ (qp ++ fp) =
          '/' :: '/' :: (n ++ (P ++ (qp ++ fp))) := by
        simp
      rw [hassoc]
      have hhead : ∀ c, (P ++ (qp ++ fp)).head? = some c → netlocChar c = false := by
        intro c hc
        rcases hcondHead hb with hP0 | hPh
        · rw [hP0, List.nil_append] at hc
          rcases hqtshape with hqt0 | ⟨t, hqt1⟩ | ⟨t, hqt1⟩
          · rw [hqt0] at hc
            cases hc
          · rw [hqt1] at hc
            simp at hc
            rw [← hc]
            decide
          · rw [hqt1] at hc
            simp at hc
            rw [← hc]
            decide
        · cases P with
          | nil => cases hPh
          | cons p0 ptl =>
            simp at hPh
            simp at hc
            rw [← hc, hPh]
            decide
      obtain ⟨ht1, hd1⟩ := takeWhile_append_all (P ++ (qp ++ fp)) hn
      obtain ⟨ht2, hd2⟩ := takeWhile_eq_nil_of_head hhead
      show netlocSplit ('/' :: '/' :: (n ++ (P ++ (qp ++ fp)))) = _
      unfold netlocSplit
      simp only
      rw [ht1, ht2, hd1, hd2]
      simp
    · have hn0 : n = [] := by
        by_contra hcon
        exact hb (Or.inl hcon)
      rw [hu1def, if_neg hb, hn0]
      apply netlocSplit_eq_self
      have hnP2 : ¬ P.take 2 = ['/', '/'] := fun h => hb (Or.inr h)
      cases P with
      | nil =>
        simp only [List.nil_append]
        rcases hqtshape with hqt0 | ⟨t, hqt1⟩ | ⟨t, hqt1⟩
        · rw [hqt0]
          simp
        · rw [hqt1]
          intro habs
          have := congrArg List.head? habs
          simp [List.take] at this
        · rw [hqt1]
          intro habs
          have := congrArg List.head? habs
          simp [List.take] at this
      | cons c cs =>
        cases cs with
        | nil =>
          simp only [List.cons_append, List.nil_append]
          intro habs
          rw [List.take] at habs
          simp at habs
          obtain ⟨hc0, htk⟩ := habs
          rcases hqtshape with hqt0 | ⟨t, hqt1⟩ | ⟨t, hqt1⟩
          · rw [hqt0] at htk
            simp at htk
          · rw [hqt1] at htk
            simp [List.take] at htk
          · rw [hqt1] at htk
            simp [List.take] at htk
        | cons d ds =>
          intro habs
          apply hnP2
          have h1 : ((c :: d :: ds) ++ (qp ++ fp)).take 2 = [c, d] := by
            simp [List.take]
          rw [h1] at habs
          simp at habs
          simp [List.take, habs.1, habs.2]
  -- fragment stage
  have hfrag : fragSplit (P ++ (qp ++ fp)) = (P ++ qp, f) := by
    unfold fragSplit
    by_cases hfe : f ≠ []
    · have hassoc : P ++ (qp ++ fp) = (P ++ qp) ++ '#' :: f := by
        rw [hfpdef, if_pos hfe]
        simp
      rw [hassoc, splitFirst_append_not_mem '#' f (by
        intro hmem
        rcases List.mem_append.1 hmem with h | h
        · exact hP1 h
        · exact hqpfree h)]
    · have hfp0 : fp = [] := by
        rw [hfpdef, if_neg hfe]
      have hnone : splitFirst '#' (P ++ (qp ++ fp)) = none := by
        rw [hfp0, List.append_nil]
        apply (splitFirst_eq_none_iff '#' _).2
        intro hmem
        rcases List.mem_append.1 hmem with h | h
        · exact hP1 h
        · exact hqpfree h
      rw [hnone]
      simp only
      rw [hfp0, List.append_nil]
      have : f = [] := by
        by_contra hcon
        exact hfe hcon
      rw [this]
  -- query stage
  have hquery : querySplit (P ++ qp) = (P, q) := by
    unfold querySplit
    by_cases hqe : q ≠ []
    · have hqp1 : qp = '?' :: q := by
        rw [hqpdef, if_pos hqe]
      rw [hqp1, splitFirst_append_not_mem '?' q hP2]
    · have hqp0 : qp = [] := by
        rw [hqpdef, if_neg hqe]
      have hnone : splitFirst '?' (P ++ qp) = none := by
        rw [hqp0, List.append_nil]
        exact (splitFirst_eq_none_iff '?' P).2 hP2
      rw [hnone]
      simp only
      rw [hqp0, List.append_nil]
      have : q = [] := by
        by_contra hcon
        exact hqe hcon
      rw [this]
  -- assemble
  show pyUrlsplit (urlAddFrag (urlAddQuery (urlAddScheme s (urlAddNetloc n P)) q) f) = _
  rw [hqf, hu1eq]
  unfold pyUrlsplit
  rw [hsch]
  simp only
  rw [hnet]
  simp only
  rw [hfrag]
  simp only
  rw [hquery]

theorem dropWhile_head_false {p : Char → Bool} :
    ∀ (l : List Char) c, (l.dropWhile p).head? = some c → p c = false := by
  intro l
  induction l with
  | nil =>
    intro c hc
    cases hc
  | cons x xs ih =>
    intro c hc
    rw [List.dropWhile_cons] at hc
    by_cases hx : p x = true
    · rw [if_pos hx] at hc
      exact ih c hc
    · rw [if_neg hx] at hc
      simp at hc
      rw [← hc]
      cases hpx : p x
      · rfl
      · exact absurd hpx hx

theorem schemeSplit_spec (url : List Char) :
    ((schemeSplit url).1 = [] ∨ (schemeOk (schemeSplit url).1 = true ∧
      (schemeSplit url).1.map asciiLower = (schemeSplit url).1)) ∧
    ((schemeSplit url).1 = [] → ((schemeSplit url).2 = url ∧
      ∀ a b, splitFirst ':' url = some (a, b) → schemeOk a = false)) := by
  unfold schemeSplit
  cases h : splitFirst ':' url with
  | none =>
    simp only
    refine ⟨Or.inl trivial, fun _ => ⟨trivial, fun a b hab => ?_⟩⟩
    cases hab
  | some ab =>
    obtain ⟨a, b⟩ := ab
    simp only
    by_cases hok : schemeOk a = true
    · rw [if_pos hok]
      constructor
      · right
        constructor
        · cases a with
          | nil => cases hok
          | cons x xs =>
            simp only [schemeOk, Bool.and_eq_true, List.all_eq_true] at hok
            simp only [List.map_cons, schemeOk, Bool.and_eq_true]
            constructor
            · exact isAlpha_asciiLower hok.1
            · rw [List.all_eq_true]
              intro c hc
              rcases List.mem_cons.1 hc with hc | hc
              · rw [hc]
                exact schemeChar_asciiLower (hok.2 x (by simp))
              · rw [List.mem_map] at hc
                obtain ⟨c0, hc0, hcc⟩ := hc
                rw [← hcc]
                exact schemeChar_asciiLower (hok.2 c0 (by simp [hc0]))
        · rw [List.map_map]
          exact List.map_congr_left (fun x _ => asciiLower_asciiLower x)
      · intro hnil
        exfalso
        cases a with
        | nil => cases hok
        | cons x xs => cases hnil
    · rw [if_neg hok]
      refine ⟨Or.inl rfl, fun _ => ⟨rfl, fun a2 b2 hab => ?_⟩⟩
      injection hab with hab2
      injection hab2 with hab3 hab4
      rw [← hab3]
      cases hok2 : schemeOk a
      · rfl
      · exact absurd hok2 hok

theorem netlocSplit_spec (u : List Char) :
    (∀ c ∈ (netlocSplit u).1, netlocChar c = true) ∧
      (((netlocSplit u).1 = [] ∧ (netlocSplit u).2 = u) ∨
        ∀ c, (netlocSplit u).2.head? = some c → netlocChar c = false) := by
  unfold netlocSplit
  split
  · rename_i rest
    simp only
    constructor
    · intro c hc
      exact List.mem_takeWhile_imp hc
    · right
      intro c hc
      exact dropWhile_head_false rest c hc
  · simp only
    exact ⟨fun c hc => absurd hc (List.not_mem_nil c), Or.inl ⟨trivial, trivial⟩⟩

theorem fragSplit_spec (u : List Char) :
    '#' ∉ (fragSplit u).1 ∧
      (u = (fragSplit u).1 ++ '#' :: (fragSplit u).2 ∨
        ((fragSplit u).2 = [] ∧ u = (fragSplit u).1)) := by
  unfold fragSplit
  cases h : splitFirst '#' u with
  | none =>
    simp only
    exact ⟨(splitFirst_eq_none_iff '#' u).1 h, Or.inr ⟨trivial, trivial⟩⟩
  | some ab =>
    obtain ⟨a, b⟩ := ab
    simp only
    obtain ⟨hu, hna⟩ := splitFirst_eq_some '#' h
    exact ⟨hna, Or.inl hu⟩

theorem querySplit_spec (u : List Char) :
    '?' ∉ (querySplit u).1 ∧
      (u = (querySplit u).1 ++ '?' :: (querySplit u).2 ∨
        ((querySplit u).2 = [] ∧ u = (querySplit u).1)) := by
  unfold querySplit
  cases h : splitFirst '?' u with
  | none =>
    simp only
    exact ⟨(splitFirst_eq_none_iff '?' u).1 h, Or.inr ⟨trivial, trivial⟩⟩
  | some ab =>
    obtain ⟨a, b⟩ := ab
    simp only
    obtain ⟨hu, hna⟩ := splitFirst_eq_some '?' h
    exact ⟨hna, Or.inl hu⟩

/-- All invariants of `urlsplit` output needed for the round trip. -/
theorem pyUrlsplit_inv (url : List Char) :
    ((pyUrlsplit url).scheme = [] ∨ (schemeOk (pyUrlsplit url).scheme = true ∧
      (pyUrlsplit url).scheme.map asciiLower = (pyUrlsplit url).scheme)) ∧
    (∀ c ∈ (pyUrlsplit url).netloc, netlocChar c = true) ∧
    '#' ∉ (pyUrlsplit url).path ∧ '?' ∉ (pyUrlsplit url).path ∧
    '#' ∉ (pyUrlsplit url).query ∧
    ((pyUrlsplit url).netloc ≠ [] →
      (pyUrlsplit url).path = [] ∨ (pyUrlsplit url).path.head? = some '/') ∧
    ((pyUrlsplit url).scheme = [] → noSchemeColon (pyUrlsplit url).path) ∧
    (pyUrlsplit url).params = [] := by
  obtain ⟨hs1, hs2⟩ := schemeSplit_spec url
  obtain ⟨hn1, hn2⟩ := netlocSplit_spec (schemeSplit url).2
  obtain ⟨hf1, hf2⟩ := fragSplit_spec (netlocSplit (schemeSplit url).2).2
  obtain ⟨hq1, hq2⟩ := querySplit_spec (fragSplit (netlocSplit (schemeSplit url).2).2).1
  set S := schemeSplit url with hSdef
  set R := (netlocSplit S.2).2 with hRdef
  set FF := fragSplit R with hFFdef
  set PQ := querySplit FF.1 with hPQdef
  have hshow : pyUrlsplit url = ⟨S.1, (netlocSplit S.2).1, PQ.1, [], PQ.2, FF.2⟩ := rfl
  rw [hshow]
  simp only
  -- the path is an initial segment of the post-netloc remainder
  have hpref : ∃ r, R = PQ.1 ++ r := by
    rcases hf2 with hf2 | ⟨hf20, hf2⟩ <;> rcases hq2 with hq2 | ⟨hq20, hq2⟩
    · exact ⟨'?' :: PQ.2 ++ '#' :: FF.2, by rw [hf2, hq2]; simp⟩
    · exact ⟨'#' :: FF.2, by rw [hf2, hq2]⟩
    · exact ⟨'?' :: PQ.2, by rw [hf2, hq2]⟩
    · exact ⟨[], by rw [hf2, hq2, List.append_nil]⟩
  have hpsub : ∀ c ∈ PQ.1, c ∈ FF.1 := by
    intro c hc
    rcases hq2 with hq2 | ⟨hq20, hq2⟩
    · rw [hq2]
      exact List.mem_append.2 (Or.inl hc)
    · rw [hq2]
      exact hc
  have hqsub : ∀ c ∈ PQ.2, c ∈ FF.1 := by
    intro c hc
    rcases hq2 with hq2 | ⟨hq20, hq2⟩
    · rw [hq2]
      exact List.mem_append.2 (Or.inr (by simp [hc]))
    · rw [hq20] at hc
      cases hc
  refine ⟨hs1, hn1, ?_, hq1, ?_, ?_, ?_, trivial⟩
  · intro hmem
    exact hf1 (hpsub '#' hmem)
  · intro hmem
    exact hf1 (hqsub '#' hmem)
  · -- netloc nonempty forces a path that is empty or starts with '/'
    intro hne
    rcases hn2 with ⟨hn0, _⟩ | hn2
    · exact absurd hn0 hne
    · cases hP : PQ.1 with
      | nil => exact Or.inl rfl
      | cons p0 ptl =>
        right
        obtain ⟨r, hr⟩ := hpref
        rw [hP] at hr
        have hhead : R.head? = some p0 := by
          rw [hr]
          rfl
        have hbad := hn2 p0 hhead
        have hp0mem : p0 ∈ PQ.1 := by
          rw [hP]
          simp
        have h1 : p0 ≠ '#' := by
          intro h0
          apply hf1
          rw [← h0]
          exact hpsub p0 hp0mem
        have h2 : p0 ≠ '?' := by
          intro h0
          rw [hP] at hq1
          apply hq1
          rw [← h0]
          simp
        simp only [netlocChar, Bool.and_eq_false_iff, decide_eq_false_iff_not,
          not_not] at hbad
        rcases hbad with (hbad | hbad) | hbad
        · simp [hbad]
        · exact absurd hbad h2
        · exact absurd hbad h1
  · -- no scheme-like colon prefix in the path when there is no scheme
    intro hs0
    obtain ⟨hs2a, hs2b⟩ := hs2 hs0
    intro a b hab
    rcases hn2 with ⟨hnn0, hn0⟩ | hn2
    · -- remainder is the whole url: transfer the failed scheme check
      obtain ⟨r, hr⟩ := hpref
      rw [hn0, hs2a] at hr
      have := splitFirst_append_left ':' r hab
      rw [← hr] at this
      exact hs2b a (b ++ r) this
    · -- the remainder starts with a netloc delimiter, so any colon prefix is bad
      obtain ⟨r, hr⟩ := hpref
      obtain ⟨hPdecomp, hna⟩ := splitFirst_eq_some ':' hab
      cases a with
      | nil => rfl
      | cons a0 atl =>
        have ha0 : R.head? = some a0 := by
          rw [hr, hPdecomp]
          rfl
        have hbad := hn2 a0 ha0
        refine @schemeOk_eq_false_of_head (a0 :: atl) a0 rfl ?_
        simp only [netlocChar, Bool.and_eq_false_iff, decide_eq_false_iff_not,
          not_not] at hbad
        rcases hbad with (hbad | hbad) | hbad <;> rw [hbad] <;> decide

/-- Splitting params off the rejoined path recovers them, and the rejoined
path is the original one, up to a dropped trailing semicolon. -/
theorem splitparams_props (P : List Char) :
    splitparams (rejoinParams (splitparams P).1 (splitparams P).2) = splitparams P ∧
    (rejoinParams (splitparams P).1 (splitparams P).2 = P ∨
      P = rejoinParams (splitparams P).1 (splitparams P).2 ++ [';']) := by
  by_cases hm : ';' ∈ P
  · cases hsl : splitLast '/' P with
    | some blls =>
      obtain ⟨bl, ls⟩ := blls
      obtain ⟨hPd, hnls⟩ := splitLast_eq_some '/' hsl
      cases hsf : splitFirst ';' ls with
      | some xy =>
        obtain ⟨x, y⟩ := xy
        obtain ⟨hls, hnx⟩ := splitFirst_eq_some ';' hsf
        have hxfree : '/' ∉ x := by
          intro hmem
          apply hnls
          rw [hls]
          exact List.mem_append.2 (Or.inl hmem)
        have hres : splitparams P = (bl ++ '/' :: x, y) := by
          unfold splitparams
          rw [if_pos hm, hsl]
          simp only
          rw [hsf]
        rw [hres]
        by_cases hy : y = []
        · subst hy
          have hrj : rejoinParams (bl ++ '/' :: x) [] = bl ++ '/' :: x := by
            unfold rejoinParams
            simp
          rw [hrj]
          constructor
          · unfold splitparams
            by_cases hm2 : ';' ∈ bl ++ '/' :: x
            · rw [if_pos hm2, splitLast_append_not_mem '/' bl hxfree]
              simp only
              rw [(splitFirst_eq_none_iff ';' x).2 hnx]
            · rw [if_neg hm2]
          · right
            rw [hPd, hls]
            simp
        · have hxyfree : '/' ∉ x ++ ';' :: y := by
            rw [← hls]
            exact hnls
          have hrj : rejoinParams (bl ++ '/' :: x) y = (bl ++ '/' :: x) ++ ';' :: y := by
            unfold rejoinParams
            rw [if_pos hy]
          rw [hrj]
          constructor
          · unfold splitparams
            have hm2 : ';' ∈ (bl ++ '/' :: x) ++ ';' :: y := by simp
            rw [if_pos hm2]
            have hassoc : (bl ++ '/' :: x) ++ ';' :: y = bl ++ '/' :: (x ++ ';' :: y) := by
              simp
            rw [hassoc, splitLast_append_not_mem '/' bl hxyfree]
            simp only
            rw [splitFirst_append_not_mem ';' y hnx]
          · left
            rw [hPd, hls]
            simp
      | none =>
        have hres : splitparams P = (P, []) := by
          unfold splitparams
          rw [if_pos hm, hsl]
          simp only
          rw [hsf]
        rw [hres]
        have hrj : rejoinParams P [] = P := by
          unfold rejoinParams
          simp
        rw [hrj]
        exact ⟨hres, Or.inl rfl⟩
    | none =>
      have hslP : '/' ∉ P := (splitLast_eq_none_iff '/' P).1 hsl
      cases hsf : splitFirst ';' P with
      | some xy =>
        obtain ⟨x, y⟩ := xy
        obtain ⟨hPd, hnx⟩ := splitFirst_eq_some ';' hsf
        have hres : splitparams P = (x, y) := by
          unfold splitparams
          rw [if_pos hm, hsl]
          simp only
          rw [hsf]
        rw [hres]
        by_cases hy : y = []
        · subst hy
          have hrj : rejoinParams x [] = x := by
            unfold rejoinParams
            simp
          rw [hrj]
          constructor
          · unfold splitparams
            rw [if_neg (fun hmem => hnx hmem)]
          · right
            rw [hPd]
        · have hrj : rejoinParams x y = x ++ ';' :: y := by
            unfold rejoinParams
            rw [if_pos hy]
          rw [hrj]
          constructor
          · rw [← hPd, hres]
          · left
            rw [hPd]
      | none =>
        exact absurd hm ((splitFirst_eq_none_iff ';' P).1 hsf)
  · have hres : splitparams P = (P, []) := by
      unfold splitparams
      rw [if_neg hm]
    rw [hres]
    have hrj : rejoinParams P [] = P := by
      unfold rejoinParams
      simp
    rw [hrj]
    exact ⟨hres, Or.inl rfl⟩

theorem mem_ampJoin {xs : List (List Char)} {c : Char} (h : c ∈ ampJoin xs) :
    c = '&' ∨ ∃ x ∈ xs, c ∈ x := by
  induction xs with
  | nil => cases h
  | cons x ys ih =>
    cases ys with
    | nil => exact Or.inr ⟨x, by simp, h⟩
    | cons y rest =>
      rcases List.mem_append.1 h with h | h
      · exact Or.inr ⟨x, by simp, h⟩
      · rcases List.mem_cons.1 h with h | h
        · exact Or.inl h
        · rcases ih h with h | ⟨z, hz, hcz⟩
          · exact Or.inl h
          · exact Or.inr ⟨z, List.mem_cons.2 (Or.inr hz), hcz⟩

theorem not_mem_urlencode {c : Char} (q2 : List (List Char × List Char))
    (hc1 : c.isAlphanum = false)
    (hc2 : c ∉ (['_', '.', '-', '~', '+', '%', '&', '='] : List Char)) :
    c ∉ urlencode q2 := by
  intro hmem
  unfold urlencode at hmem
  rcases mem_ampJoin hmem with h | ⟨x, hx, hcx⟩
  · exact hc2 (by rw [h]; simp)
  · rw [List.mem_map] at hx
    obtain ⟨p, _, hpx⟩ := hx
    rw [← hpx] at hcx
    have hcsub : c ∉ (['_', '.', '-', '~', '+', '%'] : List Char) := by
      intro hc
      apply hc2
      simp only [List.mem_cons, List.not_mem_nil, or_false] at hc ⊢
      tauto
    rcases List.mem_append.1 hcx with h | h
    · exact mem_quote_plus_excl h hc1 hcsub
    · rcases List.mem_cons.1 h with h | h
      · exact hc2 (by rw [h]; simp)
      · exact mem_quote_plus_excl h hc1 hcsub

theorem pyUrlparse_eq (x : List Char) :
    pyUrlparse x = ⟨(pyUrlsplit x).scheme, (pyUrlsplit x).netloc,
      (splitparams (pyUrlsplit x).path).1, (splitparams (pyUrlsplit x).path).2,
      (pyUrlsplit x).query, (pyUrlsplit x).fragment⟩ := rfl

/-- The central round trip: re-parsing the URL reassembled from parsed
components (with any urlencoded query substituted) recovers the components. -/
theorem pyUrlparse_unparse (url : List Char) (q2 : List (List Char × List Char)) :
    pyUrlparse (pyUrlunparse (pyUrlparse url).scheme (pyUrlparse url).netloc
      (pyUrlparse url).path (pyUrlparse url).params (urlencode q2)
      (pyUrlparse url).fragment) =
    ⟨(pyUrlparse url).scheme, (pyUrlparse url).netloc, (pyUrlparse url).path,
      (pyUrlparse url).params, urlencode q2, (pyUrlparse url).fragment⟩ := by
  obtain ⟨hi1, hi2, hi3, hi4, hi5, hi6, hi7, hi8⟩ := pyUrlsplit_inv url
  obtain ⟨hsp1, hsp2⟩ := splitparams_props (pyUrlsplit url).path
  set P2 : List Char :=
    rejoinParams (splitparams (pyUrlsplit url).path).1 (splitparams (pyUrlsplit url).path).2
    with hP2def
  have hqenc : '#' ∉ urlencode q2 := not_mem_urlencode q2 (by decide) (by decide)
  -- characters of the rejoined path come from the original path
  have hmemP2 : ∀ c ∈ P2, c ∈ (pyUrlsplit url).path := by
    intro c hc
    rcases hsp2 with hsp2 | hsp2
    · rw [← hsp2]
      exact hc
    · rw [hsp2]
      exact List.mem_append.2 (Or.inl hc)
  have hsplit : pyUrlsplit (pyUrlunsplit (pyUrlsplit url).scheme (pyUrlsplit url).netloc
      P2 (urlencode q2) (pyUrlsplit url).fragment) =
      ⟨(pyUrlsplit url).scheme, (pyUrlsplit url).netloc, P2, [], urlencode q2,
        (pyUrlsplit url).fragment⟩ := by
    apply unsplit_split
    · exact hi1
    · exact hi2
    · intro hmem
      exact hi3 (hmemP2 '#' hmem)
    · intro hmem
      exact hi4 (hmemP2 '?' hmem)
    · exact hqenc
    · intro hne
      rcases hsp2 with hsp2 | hsp2
      · rw [hsp2]
        exact hi6 hne
      · rcases hi6 hne with hp0 | hph
        · rw [hp0] at hsp2
          exact absurd hsp2.symm (by simp)
        · cases hP2c : P2 with
          | nil => exact Or.inl rfl
          | cons c cs =>
            right
            rw [hP2c] at hsp2
            rw [hsp2] at hph
            simp at hph
            simp [hph]
    · intro hs0
      intro a b hab
      rcases hsp2 with hsp2 | hsp2
      · rw [hsp2] at hab
        exact hi7 hs0 a b hab
      · have := splitFirst_append_left ':' [';'] hab
        rw [← hsp2] at this
        exact hi7 hs0 a (b ++ [';']) this
  rw [pyUrlparse_eq (pyUrlunparse (pyUrlparse url).scheme (pyUrlparse url).netloc
    (pyUrlparse url).path (pyUrlparse url).params (urlencode q2) (pyUrlparse url).fragment)]
  have hunp : pyUrlunparse (pyUrlparse url).scheme (pyUrlparse url).netloc
      (pyUrlparse url).path (pyUrlparse url).params (urlencode q2)
      (pyUrlparse url).fragment =
      pyUrlunsplit (pyUrlsplit url).scheme (pyUrlsplit url).netloc P2 (urlencode q2)
        (pyUrlsplit url).fragment := rfl
  rw [hunp, hsplit]
  simp only
  rw [hsp1]
  rfl

/-- The tracking filter applied to query parameters. -/
def dropTracking (l : List (List Char × List Char)) : List (List Char × List Char) :=
  l.filter (fun kv => ! trackingKey kv.1)

theorem dropTracking_idem (l : List (List Char × List Char)) :
    dropTracking (dropTracking l) = dropTracking l := by
  unfold dropTracking
  rw [List.filter_filter]
  congr 1
  funext kv
  rw [Bool.and_self]

theorem normalizeList_eq (url : List Char) :
    normalizeList url = pyUrlunparse (pyUrlparse url).scheme (pyUrlparse url).netloc
      (pyUrlparse url).path (pyUrlparse url).params
      (urlencode (dropTracking (parse_qsl (pyUrlparse url).query)))
      (pyUrlparse url).fragment := rfl

/-- Components of a normalized URL: unchanged except the query, whose
parameters are exactly the non-tracking ones, in order. -/
theorem pyUrlparse_normalizeList (url : List Char) :
    pyUrlparse (normalizeList url) =
      ⟨(pyUrlparse url).scheme, (pyUrlparse url).netloc, (pyUrlparse url).path,
        (pyUrlparse url).params,
        urlencode (dropTracking (parse_qsl (pyUrlparse url).query)),
        (pyUrlparse url).fragment⟩ := by
  rw [normalizeList_eq]
  exact pyUrlparse_unparse url (dropTracking (parse_qsl (pyUrlparse url).query))

/-- `normalize_url` depends only on the non-query components and the
filtered parameter list. -/
theorem normalizeList_congr {u1 u2 : List Char}
    (h1 : (pyUrlparse u1).scheme = (pyUrlparse u2).scheme)
    (h2 : (pyUrlparse u1).netloc = (pyUrlparse u2).netloc)
    (h3 : (pyUrlparse u1).path = (pyUrlparse u2).path)
    (h4 : (pyUrlparse u1).params = (pyUrlparse u2).params)
    (h5 : (pyUrlparse u1).fragment = (pyUrlparse u2).fragment)
    (hq : dropTracking (parse_qsl (pyUrlparse u1).query) =
      dropTracking (parse_qsl (pyUrlparse u2).query)) :
    normalizeList u1 = normalizeList u2 := by
  rw [normalizeList_eq, normalizeList_eq, h1, h2, h3, h4, h5, hq]

/-- `normalize_url` is idempotent. -/
theorem normalizeList_idem (url : List Char) :
    normalizeList (normalizeList url) = normalizeList url := by
  conv_lhs => rw [normalizeList_eq (normalizeList url)]
  rw [pyUrlparse_normalizeList]
  simp only
  rw [parse_qsl_urlencode, dropTracking_idem]
  rw [normalizeList_eq url]

theorem normalize_url_idem (url : String) :
    normalize_url (normalize_url url) = normalize_url url := by
  unfold normalize_url
  simp only
  rw [normalizeList_idem]

/-! ## SHA-256 (model of `hashlib.sha256`, over `Nat` words mod `2 ^ 32`) -/

def sha256K : List Nat := [
  1116352408, 1899447441, 3049323471, 3921009573,
  961987163, 1508970993, 2453635748, 2870763221,
  3624381080, 310598401, 607225278, 1426881987,
  1925078388, 2162078206, 2614888103, 3248222580,
  3835390401, 4022224774, 264347078, 604807628,
  770255983, 1249150122, 1555081692, 1996064986,
  2554220882, 2821834349, 2952996808, 3210313671,
  3336571891, 3584528711, 113926993, 338241895,
  666307205, 773529912, 1294757372, 1396182291,
  1695183700, 1986661051, 2177026350, 2456956037,
  2730485921, 2820302411, 3259730800, 3345764771,
  3516065817, 3600352804, 4094571909, 275423344,
  430227734, 506948616, 659060556, 883997877,
  958139571, 1322822218, 1537002063, 1747873779,
  1955562222, 2024104815, 2227730452, 2361852424,
  2428436474, 2756734187, 3204031479, 3329325298]

def sha256H0 : List Nat :=
  [1779033703, 3144134277, 1013904242, 2773480762,
   1359893119, 2600822924, 528734635, 1541459225]

def w32 (x : Nat) : Nat := x % 4294967296

def rotr32 (n x : Nat) : Nat := w32 ((x >>> n) ||| (x <<< (32 - n)))

def bsig0 (x : Nat) : Nat := rotr32 2 x ^^^ rotr32 13 x ^^^ rotr32 22 x

def bsig1 (x : Nat) : Nat := rotr32 6 x ^^^ rotr32 11 x ^^^ rotr32 25 x

def ssig0 (x : Nat) : Nat := rotr32 7 x ^^^ rotr32 18 x ^^^ (x >>> 3)

def ssig1 (x : Nat) : Nat := rotr32 17 x ^^^ rotr32 19 x ^^^ (x >>> 10)

def chF (x y z : Nat) : Nat := (x &&& y) ^^^ ((x ^^^ 0xFFFFFFFF) &&& z)

def majF (x y z : Nat) : Nat := (x &&& y) ^^^ (x &&& z) ^^^ (y &&& z)

/-- Pad a byte message: append `0x80`, zeros, and the 64-bit big-endian
bit length, reaching a multiple of 64 bytes. -/
def sha256Pad (msg : List Nat) : List Nat :=
  let len := msg.length
  let bitlen := 8 * len
  let zeros := (119 - len % 64) % 64
  msg ++ 0x80 :: List.replicate zeros 0 ++
    [bitlen >>> 56 % 256, bitlen >>> 48 % 256, bitlen >>> 40 % 256, bitlen >>> 32 % 256,
     bitlen >>> 24 % 256, bitlen >>> 16 % 256, bitlen >>> 8 % 256, bitlen % 256]

def chunksAux : Nat → List Nat → List (List Nat)
  | _, [] => []
  | 0, _ :: _ => []
  | fuel + 1, a :: l => (a :: l).take 64 :: chunksAux fuel ((a :: l).drop 64)

def chunks64 (l : List Nat) : List (List Nat) := chunksAux l.length l

/-- Big-endian bytes to 32-bit words. -/
def toWords : List Nat → List Nat
  | b1 :: b2 :: b3 :: b4 :: rest =>
    (((b1 * 256 + b2) * 256 + b3) * 256 + b4) :: toWords rest
  | _ => []

/-- Extend 16 words to the 64-word message schedule. -/
def extendWords (ws : List Nat) : List Nat :=
  (List.range 48).foldl (fun acc _ =>
    acc ++ [w32 (ssig1 (acc.getD (acc.length - 2) 0) + acc.getD (acc.length - 7) 0 +
      ssig0 (acc.getD (acc.length - 15) 0) + acc.getD (acc.length - 16) 0)]) ws

/-- One SHA-256 compression round over the eight working variables. -/
def sha256Round (ws : List Nat) (st : List Nat) (i : Nat) : List Nat :=
  match st with
  | [a, b, c, d, e, f, g, h] =>
    let t1 := w32 (h + bsig1 e + chF e f g + sha256K.getD i 0 + ws.getD i 0)
    let t2 := w32 (bsig0 a + majF a b c)
    [w32 (t1 + t2), a, b, c, w32 (d + t1), e, f, g]
  | other => other

/-- Compress one 64-byte block into the hash state. -/
def sha256Compress (h : List Nat) (block : List Nat) : List Nat :=
  let ws := extendWords (toWords block)
  let st := (List.range 64).foldl (sha256Round ws) h
  (h.zip st).map (fun p => w32 (p.1 + p.2))

def sha256Words (msg : List Nat) : List Nat :=
  (chunks64 (sha256Pad msg)).foldl sha256Compress sha256H0

def hexCharLower (n : Nat) : Char :=
  if n < 10 then Char.ofNat (48 + n) else Char.ofNat (87 + n)

def wordToHex (w : Nat) : List Char :=
  [hexCharLower (w >>> 28 % 16), hexCharLower (w >>> 24 % 16), hexCharLower (w >>> 20 % 16),
   hexCharLower (w >>> 16 % 16), hexCharLower (w >>> 12 % 16), hexCharLower (w >>> 8 % 16),
   hexCharLower (w >>> 4 % 16), hexCharLower (w % 16)]

/-- Lowercase hex digest of the SHA-256 of a byte sequence
(model of `hashlib.sha256(...).hexdigest()`). -/
def sha256Hex (msg : List Nat) : String := ⟨(sha256Words msg).flatMap wordToHex⟩

/-! ## The identity key of `bot.py` -/

/-- Model of Python `str.strip()`. -/
def trimList (l : List Char) : List Char :=
  ((l.dropWhile Char.isWhitespace).reverse.dropWhile Char.isWhitespace).reverse

/-- The pre-hash byte string of `stable_key`. -/
def keyBase (title url : String) : List Nat :=
  utf8Encode (trimList (normalize_url url).data ++ '\n' :: trimList title.data)

/-- `stable_key` of `bot.py`: SHA-256 over normalized url, newline, title. -/
def stable_key (title url : String) : String := sha256Hex (keyBase title url)


/-! ## Exclusion filter (`is_excluded` of `bot.py`) -/

/-- Model of Python `str.strip()` at the `String` level. -/
def pyStrip (s : String) : String := ⟨trimList s.data⟩

/-- `is_excluded` of `bot.py`: empty (stripped) titles are excluded, and so
is any title containing a non-empty pattern, case-sensitively or after
lowercasing both sides. -/
def is_excluded (title : String) (exclude_words : List String) : Bool :=
  let t := trimList title.data
  if t.isEmpty then true
  else
    let tl := lowerList t
    exclude_words.any (fun w => !w.data.isEmpty &&
      (decide (w.data <:+: t) || decide (lowerList w.data <:+: tl)))

/-! ## State store -/

/-- A persisted JSON value in the state mapping: an integer timestamp or
some other (non-integer) value. -/
inductive StVal where
  | vint : Int → StVal
  | vstr : String → StVal
deriving DecidableEq

/-- The state mapping, as an insertion-ordered dictionary. -/
abbrev Dict := List (String × StVal)

def dictContains (d : Dict) (k : String) : Bool := d.any (fun kv => kv.1 == k)

/-- Python `d[k] = v`: update in place if present, else append. -/
def dictInsert (d : Dict) (k : String) (v : StVal) : Dict :=
  if dictContains d k then d.map (fun kv => if kv.1 == k then (kv.1, v) else kv)
  else d ++ [(k, v)]

def isOldEntry (cutoff : Int) (kv : String × StVal) : Bool :=
  match kv.2 with
  | StVal.vint v => decide (v < cutoff)
  | _ => false

/-- `prune_state` of `bot.py`: collect keys with integer value below the
cutoff, then pop each. -/
def prune_state (state : Dict) (now_ts : Int) (days : Int) : Dict :=
  let cutoff := now_ts - days * 24 * 60 * 60
  let old_keys := (state.filter (isOldEntry cutoff)).map Prod.fst
  old_keys.foldl (fun st k => st.eraseP (fun kv => kv.1 == k)) state

/-! ## Notifier (`post_to_slack` of `bot.py`) -/

/-- An HTTP response from the webhook: status code, and the
`Retry-After` header as an integer when present (the spec's external
interface guarantees an integer value). -/
structure Resp where
  status : Nat
  retryAfter : Option Int
deriving DecidableEq

instance : DecidableEq (Except Nat Unit) := fun a b =>
  match a, b with
  | Except.error x, Except.error y =>
    if h : x = y then Decidable.isTrue (by rw [h])
    else Decidable.isFalse (fun hc => h (by injection hc))
  | Except.error _, Except.ok _ => Decidable.isFalse (fun hc => by injection hc)
  | Except.ok _, Except.error _ => Decidable.isFalse (fun hc => by injection hc)
  | Except.ok x, Except.ok y => Decidable.isTrue (by rfl)

/-- Model of `requests.Response.raise_for_status`. -/
def raise_for_status (st : Nat) : Except Nat Unit :=
  if 400 ≤ st ∧ st < 600 then Except.error st else Except.ok ()

structure PostResult where
  attempts : Nat
  waited : Option Int
  outcome : Except Nat Unit
deriving DecidableEq

/-- `post_to_slack` of `bot.py`, given the responses the destination
would return to the first and (if made) second attempt: on 429 wait
`max 1 (Retry-After or 2)` and retry exactly once, then raise for status. -/
def post_to_slack (r1 r2 : Resp) : PostResult :=
  if r1.status = 429 then
    ⟨2, some (max 1 (r1.retryAfter.getD 2)), raise_for_status r2.status⟩
  else
    ⟨1, none, raise_for_status r1.status⟩

/-! ## Run controller (`main` of `bot.py`) -/

structure Config where
  slack_webhook_url : String
  warm_start : Bool
  max_posts_per_run : Int
  prune_days : Int

/-- A feed, reduced to its entries' raw title and link strings. -/
abbrev Feed := List (String × String)

inductive ExitKind where
  | normal
  | capped
  | failed
deriving DecidableEq

structure LoopState where
  state : Dict
  new_count : Nat
  posted_count : Nat
  calls : Nat
deriving DecidableEq

inductive StepSignal where
  | failed
  | capped
deriving DecidableEq

/-- The body of the inner entry loop of `main`: lines 100–123 of `bot.py`.
Returns the updated loop state and an abort signal: `failed` models the
exception from `post_to_slack` propagating, `capped` the `break` when the
per-run cap is reached. -/
def processEntry (cfg : Config) (exclude_words : List String) (now : Int)
    (net : Nat → Resp × Resp) (ls : LoopState) (e : String × String) :
    LoopState × Option StepSignal :=
  let title := pyStrip e.1
  let link := pyStrip e.2
  if title = "" ∨ link = "" then (ls, none)
  else if is_excluded title exclude_words then (ls, none)
  else
    let key := stable_key title link
    if dictContains ls.state key then (ls, none)
    else
      let ls2 : LoopState :=
        ⟨dictInsert ls.state key (StVal.vint now), ls.new_count + 1, ls.posted_count, ls.calls⟩
      if cfg.warm_start then (ls2, none)
      else
        let rs := net ls.calls
        let pr := post_to_slack rs.1 rs.2
        let ls3 : LoopState := ⟨ls2.state, ls2.new_count, ls2.posted_count, ls2.calls + 1⟩
        match pr.outcome with
        | Except.error _ => (ls3, some StepSignal.failed)
        | Except.ok _ =>
          let ls4 : LoopState := ⟨ls3.state, ls3.new_count, ls3.posted_count + 1, ls3.calls⟩
          if cfg.max_posts_per_run ≤ (ls4.posted_count : Int) then (ls4, some StepSignal.capped)
          else (ls4, none)

/-- The inner `for e in entries` loop. -/
def processEntries (cfg : Config) (exclude_words : List String) (now : Int)
    (net : Nat → Resp × Resp) : LoopState → List (String × String) →
    LoopState × Option StepSignal
  | ls, [] => (ls, none)
  | ls, e :: rest =>
    match processEntry cfg exclude_words now net ls e with
    | (ls2, none) => processEntries cfg exclude_words now net ls2 rest
    | (ls2, some sig) => (ls2, some sig)

/-- The outer `for feed_url in feeds` loop, with the second cap check after
each feed (line 125 of `bot.py`). -/
def processFeeds (cfg : Config) (exclude_words : List String) (now : Int)
    (net : Nat → Resp × Resp) : LoopState → List Feed → LoopState × ExitKind
  | ls, [] => (ls, ExitKind.normal)
  | ls, feed :: rest =>
    match processEntries cfg exclude_words now net ls feed with
    | (ls2, some StepSignal.failed) => (ls2, ExitKind.failed)
    | (ls2, some StepSignal.capped) => (ls2, ExitKind.capped)
    | (ls2, none) =>
      if cfg.max_posts_per_run ≤ (ls2.posted_count : Int) then (ls2, ExitKind.capped)
      else processFeeds cfg exclude_words now net ls2 rest

/-- The observable outcome of one run of `main`: whether and with what the
state file was overwritten, what summary was printed, whether an exception
propagated, and the final in-memory loop state. -/
structure RunOutcome where
  fileState : Option Dict
  printed : Option (Nat × Nat × Bool)
  raised : Bool
  mem : LoopState
  exit : ExitKind
deriving DecidableEq

/-- `main` of `bot.py`: precondition check, load (given as arguments),
prune, the two loops, then save and print — the save and the summary line
are reached only when no exception propagated out of the loops. -/
def mainRun (cfg : Config) (feeds : List Feed) (exclude_words : List String)
    (state0 : Dict) (now : Int) (net : Nat → Resp × Resp) : RunOutcome :=
  if cfg.slack_webhook_url = "" ∧ cfg.warm_start = false then
    ⟨none, none, true, ⟨state0, 0, 0, 0⟩, ExitKind.failed⟩
  else
    let st1 := prune_state state0 now cfg.prune_days
    let r := processFeeds cfg exclude_words now net ⟨st1, 0, 0, 0⟩ feeds
    match r.2 with
    | ExitKind.failed => ⟨none, none, true, r.1, ExitKind.failed⟩
    | e => ⟨some r.1.state, some (r.1.new_count, r.1.posted_count, cfg.warm_start), false, r.1, e⟩

/-! ## State-store lemmas -/

theorem dictContains_mem {d : Dict} {k : String} :
    dictContains d k = true ↔ ∃ kv ∈ d, kv.1 = k := by
  unfold dictContains
  rw [List.any_eq_true]
  constructor
  · rintro ⟨kv, hm, hk⟩; exact ⟨kv, hm, by simpa using hk⟩
  · rintro ⟨kv, hm, hk⟩; exact ⟨kv, hm, by simpa using hk⟩

theorem dictContains_dictInsert (d : Dict) (k k' : String) (v : StVal)
    (h : dictContains d k = true) : dictContains (dictInsert d k' v) k = true := by
  unfold dictInsert
  split
  · rw [dictContains_mem] at h ⊢
    obtain ⟨kv, hm, hk⟩ := h
    refine ⟨if kv.1 == k' then (kv.1, v) else kv, List.mem_map_of_mem _ hm, ?_⟩
    split <;> simpa using hk
  · rw [dictContains_mem] at h ⊢
    obtain ⟨kv, hm, hk⟩ := h
    exact ⟨kv, List.mem_append_left _ hm, hk⟩

theorem dictContains_insert_self (d : Dict) (k : String) (v : StVal) :
    dictContains (dictInsert d k v) k = true := by
  unfold dictInsert
  split
  case isTrue h =>
    rw [dictContains_mem] at h ⊢
    obtain ⟨kv, hm, hk⟩ := h
    refine ⟨(kv.1, v), ?_, hk⟩
    have he : (if kv.1 == k then (kv.1, v) else kv) = (kv.1, v) := by
      rw [if_pos (by simpa using hk)]
    exact he ▸ List.mem_map_of_mem _ hm
  case isFalse h =>
    rw [dictContains_mem]
    exact ⟨(k, v), List.mem_append_right _ (List.mem_singleton_self _), rfl⟩

/-! ## `processEntry` lemmas -/

theorem processEntry_state_eq (cfg : Config) (ew : List String) (now : Int)
    (net : Nat → Resp × Resp) (ls : LoopState) (e : String × String) :
    (processEntry cfg ew now net ls e).1.state = ls.state ∨
    (processEntry cfg ew now net ls e).1.state =
      dictInsert ls.state (stable_key (pyStrip e.1) (pyStrip e.2)) (StVal.vint now) := by
  unfold processEntry
  simp only
  split
  · exact Or.inl rfl
  split
  · exact Or.inl rfl
  split
  · exact Or.inl rfl
  split
  · exact Or.inr rfl
  split
  · exact Or.inr rfl
  split
  · exact Or.inr rfl
  · exact Or.inr rfl

theorem processEntry_mono (cfg : Config) (ew : List String) (now : Int)
    (net : Nat → Resp × Resp) (ls : LoopState) (e : String × String) (k : String)
    (h : dictContains ls.state k = true) :
    dictContains (processEntry cfg ew now net ls e).1.state k = true := by
  rcases processEntry_state_eq cfg ew now net ls e with he | he <;> rw [he]
  · exact h
  · exact dictContains_dictInsert _ _ _ _ h

theorem processEntry_skip_empty (cfg : Config) (ew : List String) (now : Int)
    (net : Nat → Resp × Resp) (ls : LoopState) (e : String × String)
    (h : pyStrip e.1 = "" ∨ pyStrip e.2 = "") :
    processEntry cfg ew now net ls e = (ls, none) := by
  unfold processEntry
  simp only
  rw [if_pos h]

theorem processEntry_skip_excluded (cfg : Config) (ew : List String) (now : Int)
    (net : Nat → Resp × Resp) (ls : LoopState) (e : String × String)
    (h : is_excluded (pyStrip e.1) ew = true) :
    processEntry cfg ew now net ls e = (ls, none) := by
  unfold processEntry
  simp only
  split
  · rfl
  · rfl

theorem processEntry_skip_contains (cfg : Config) (ew : List String) (now : Int)
    (net : Nat → Resp × Resp) (ls : LoopState) (e : String × String)
    (h : dictContains ls.state (stable_key (pyStrip e.1) (pyStrip e.2)) = true) :
    processEntry cfg ew now net ls e = (ls, none) := by
  unfold processEntry
  simp only
  split
  · rfl
  split
  · rfl
  · rfl

/-- The new-entry branch of `processEntry` with warm start on: record the key,
bump `new_count`, make no call. -/
theorem processEntry_warm_main (cfg : Config) (ew : List String) (now : Int)
    (net : Nat → Resp × Resp) (ls : LoopState) (e : String × String)
    (h1 : ¬(pyStrip e.1 = "" ∨ pyStrip e.2 = ""))
    (h2 : is_excluded (pyStrip e.1) ew = false)
    (h3 : dictContains ls.state (stable_key (pyStrip e.1) (pyStrip e.2)) = false)
    (hw : cfg.warm_start = true) :
    processEntry cfg ew now net ls e =
      (⟨dictInsert ls.state (stable_key (pyStrip e.1) (pyStrip e.2)) (StVal.vint now),
        ls.new_count + 1, ls.posted_count, ls.calls⟩, none) := by
  unfold processEntry
  simp only
  rw [if_neg h1, if_neg (by simp [h2]), if_neg (by simp [h3]), if_pos hw]

/-- The new-entry branch of `processEntry` with warm start off: record the key,
bump `new_count`, call the webhook, and react to the outcome. -/
theorem processEntry_main (cfg : Config) (ew : List String) (now : Int)
    (net : Nat → Resp × Resp) (ls : LoopState) (e : String × String)
    (h1 : ¬(pyStrip e.1 = "" ∨ pyStrip e.2 = ""))
    (h2 : is_excluded (pyStrip e.1) ew = false)
    (h3 : dictContains ls.state (stable_key (pyStrip e.1) (pyStrip e.2)) = false)
    (hw : cfg.warm_start = false) :
    processEntry cfg ew now net ls e =
      match (post_to_slack (net ls.calls).1 (net ls.calls).2).outcome with
      | Except.error _ =>
        (⟨dictInsert ls.state (stable_key (pyStrip e.1) (pyStrip e.2)) (StVal.vint now),
          ls.new_count + 1, ls.posted_count, ls.calls + 1⟩, some StepSignal.failed)
      | Except.ok _ =>
        if cfg.max_posts_per_run ≤ ((ls.posted_count + 1 : Nat) : Int) then
          (⟨dictInsert ls.state (stable_key (pyStrip e.1) (pyStrip e.2)) (StVal.vint now),
            ls.new_count + 1, ls.posted_count + 1, ls.calls + 1⟩, some StepSignal.capped)
        else
          (⟨dictInsert ls.state (stable_key (pyStrip e.1) (pyStrip e.2)) (StVal.vint now),
            ls.new_count + 1, ls.posted_count + 1, ls.calls + 1⟩, none) := by
  unfold processEntry
  simp only
  rw [if_neg h1, if_neg (by simp [h2]), if_neg (by simp [h3]), if_neg (by simp [hw])]

theorem processEntry_records (cfg : Config) (ew : List String) (now : Int)
    (net : Nat → Resp × Resp) (ls : LoopState) (e : String × String)
    (ht : ¬(pyStrip e.1 = "" ∨ pyStrip e.2 = ""))
    (hx : is_excluded (pyStrip e.1) ew = false) :
    dictContains (processEntry cfg ew now net ls e).1.state
      (stable_key (pyStrip e.1) (pyStrip e.2)) = true := by
  rcases h3 : dictContains ls.state (stable_key (pyStrip e.1) (pyStrip e.2)) with _ | _
  · rcases hw : cfg.warm_start with _ | _
    · rw [processEntry_main cfg ew now net ls e ht hx h3 hw]
      split
      · exact dictContains_insert_self _ _ _
      · split <;> exact dictContains_insert_self _ _ _
    · rw [processEntry_warm_main cfg ew now net ls e ht hx h3 hw]
      exact dictContains_insert_self _ _ _
  · rw [processEntry_skip_contains cfg ew now net ls e h3]
    exact h3

theorem processEntry_warm (cfg : Config) (ew : List String) (now : Int)
    (net : Nat → Resp × Resp) (ls : LoopState) (e : String × String)
    (hw : cfg.warm_start = true) :
    (processEntry cfg ew now net ls e).2 = none ∧
    (processEntry cfg ew now net ls e).1.posted_count = ls.posted_count ∧
    (processEntry cfg ew now net ls e).1.calls = ls.calls := by
  by_cases h1 : pyStrip e.1 = "" ∨ pyStrip e.2 = ""
  · rw [processEntry_skip_empty cfg ew now net ls e h1]; exact ⟨rfl, rfl, rfl⟩
  rcases h2 : is_excluded (pyStrip e.1) ew with _ | _
  · rcases h3 : dictContains ls.state (stable_key (pyStrip e.1) (pyStrip e.2)) with _ | _
    · rw [processEntry_warm_main cfg ew now net ls e h1 h2 h3 hw]; exact ⟨rfl, rfl, rfl⟩
    · rw [processEntry_skip_contains cfg ew now net ls e h3]; exact ⟨rfl, rfl, rfl⟩
  · rw [processEntry_skip_excluded cfg ew now net ls e h2]; exact ⟨rfl, rfl, rfl⟩

theorem processEntry_delta (cfg : Config) (ew : List String) (now : Int)
    (net : Nat → Resp × Resp) (ls : LoopState) (e : String × String)
    (hw : cfg.warm_start = false)
    (hsig : (processEntry cfg ew now net ls e).2 ≠ some StepSignal.failed) :
    (processEntry cfg ew now net ls e).1.new_count + ls.posted_count =
      ls.new_count + (processEntry cfg ew now net ls e).1.posted_count := by
  by_cases h1 : pyStrip e.1 = "" ∨ pyStrip e.2 = ""
  · rw [processEntry_skip_empty cfg ew now net ls e h1]
  rcases h2 : is_excluded (pyStrip e.1) ew with _ | _
  · rcases h3 : dictContains ls.state (stable_key (pyStrip e.1) (pyStrip e.2)) with _ | _
    · rcases ho : (post_to_slack (net ls.calls).1 (net ls.calls).2).outcome with st | u
      · rw [processEntry_main cfg ew now net ls e h1 h2 h3 hw, ho] at hsig
        exact absurd rfl hsig
      · rw [processEntry_main cfg ew now net ls e h1 h2 h3 hw, ho]
        simp only
        split
        · show ls.new_count + 1 + ls.posted_count = ls.new_count + (ls.posted_count + 1)
          omega
        · show ls.new_count + 1 + ls.posted_count = ls.new_count + (ls.posted_count + 1)
          omega
    · rw [processEntry_skip_contains cfg ew now net ls e h3]
  · rw [processEntry_skip_excluded cfg ew now net ls e h2]

/-! ## `processEntries` and `processFeeds` lemmas -/

theorem processEntries_nil (cfg : Config) (ew : List String) (now : Int)
    (net : Nat → Resp × Resp) (ls : LoopState) :
    processEntries cfg ew now net ls [] = (ls, none) := rfl

theorem processEntries_cons (cfg : Config) (ew : List String) (now : Int)
    (net : Nat → Resp × Resp) (ls : LoopState) (e : String × String)
    (rest : List (String × String)) :
    processEntries cfg ew now net ls (e :: rest) =
      match processEntry cfg ew now net ls e with
      | (ls2, none) => processEntries cfg ew now net ls2 rest
      | (ls2, some sig) => (ls2, some sig) := rfl

theorem processFeeds_nil (cfg : Config) (ew : List String) (now : Int)
    (net : Nat → Resp × Resp) (ls : LoopState) :
    processFeeds cfg ew now net ls [] = (ls, ExitKind.normal) := rfl

theorem processFeeds_cons (cfg : Config) (ew : List String) (now : Int)
    (net : Nat → Resp × Resp) (ls : LoopState) (feed : Feed) (rest : List Feed) :
    processFeeds cfg ew now net ls (feed :: rest) =
      match processEntries cfg ew now net ls feed with
      | (ls2, some StepSignal.failed) => (ls2, ExitKind.failed)
      | (ls2, some StepSignal.capped) => (ls2, ExitKind.capped)
      | (ls2, none) =>
        if cfg.max_posts_per_run ≤ (ls2.posted_count : Int) then (ls2, ExitKind.capped)
        else processFeeds cfg ew now net ls2 rest := rfl

theorem processEntries_signal (cfg : Config) (ew : List String) (now : Int)
    (net : Nat → Resp × Resp) (ls : LoopState) (e : String × String)
    (rest : List (String × String)) (ls2 : LoopState) (s : StepSignal)
    (h : processEntry cfg ew now net ls e = (ls2, some s)) :
    processEntries cfg ew now net ls (e :: rest) = (ls2, some s) := by
  rw [processEntries_cons, h]

theorem processFeeds_failed_of_entries (cfg : Config) (ew : List String) (now : Int)
    (net : Nat → Resp × Resp) (ls : LoopState) (feed : Feed) (rest : List Feed)
    (ls2 : LoopState)
    (h : processEntries cfg ew now net ls feed = (ls2, some StepSignal.failed)) :
    processFeeds cfg ew now net ls (feed :: rest) = (ls2, ExitKind.failed) := by
  rw [processFeeds_cons, h]

theorem processFeeds_capped_of_entries (cfg : Config) (ew : List String) (now : Int)
    (net : Nat → Resp × Resp) (ls : LoopState) (feed : Feed) (rest : List Feed)
    (ls2 : LoopState)
    (h : processEntries cfg ew now net ls feed = (ls2, some StepSignal.capped)) :
    processFeeds cfg ew now net ls (feed :: rest) = (ls2, ExitKind.capped) := by
  rw [processFeeds_cons, h]

theorem processEntries_mono (cfg : Config) (ew : List String) (now : Int)
    (net : Nat → Resp × Resp) :
    ∀ (entries : List (String × String)) (ls : LoopState) (k : String),
      dictContains ls.state k = true →
      dictContains (processEntries cfg ew now net ls entries).1.state k = true := by
  intro entries
  induction entries with
  | nil => intro ls k h; exact h
  | cons e rest ih =>
    intro ls k h
    have h2 := processEntry_mono cfg ew now net ls e k h
    rw [processEntries_cons]
    rcases hp : processEntry cfg ew now net ls e with ⟨ls2, sig⟩
    rw [hp] at h2
    cases sig with
    | none => exact ih ls2 k h2
    | some s => exact h2

theorem processFeeds_mono (cfg : Config) (ew : List String) (now : Int)
    (net : Nat → Resp × Resp) :
    ∀ (feeds : List Feed) (ls : LoopState) (k : String),
      dictContains ls.state k = true →
      dictContains (processFeeds cfg ew now net ls feeds).1.state k = true := by
  intro feeds
  induction feeds with
  | nil => intro ls k h; exact h
  | cons feed rest ih =>
    intro ls k h
    have h2 := processEntries_mono cfg ew now net feed ls k h
    rw [processFeeds_cons]
    rcases hp : processEntries cfg ew now net ls feed with ⟨ls2, sig⟩
    rw [hp] at h2
    cases sig with
    | some s =>
      cases s with
      | failed => exact h2
      | capped => exact h2
    | none =>
      simp only
      split
      · exact h2
      · exact ih ls2 k h2

theorem processEntries_warm (cfg : Config) (ew : List String) (now : Int)
    (net : Nat → Resp × Resp) (hw : cfg.warm_start = true) :
    ∀ (entries : List (String × String)) (ls : LoopState),
      (processEntries cfg ew now net ls entries).2 = none ∧
      (processEntries cfg ew now net ls entries).1.posted_count = ls.posted_count ∧
      (processEntries cfg ew now net ls entries).1.calls = ls.calls := by
  intro entries
  induction entries with
  | nil => intro ls; exact ⟨rfl, rfl, rfl⟩
  | cons e rest ih =>
    intro ls
    obtain ⟨hs, hp', hc⟩ := processEntry_warm cfg ew now net ls e hw
    rw [processEntries_cons]
    rcases hp : processEntry cfg ew now net ls e with ⟨ls2, sig⟩
    rw [hp] at hs hp' hc
    cases sig with
    | none =>
      obtain ⟨a, b, c⟩ := ih ls2
      exact ⟨a, by rw [b]; exact hp', by rw [c]; exact hc⟩
    | some s => simp at hs

theorem processFeeds_warm (cfg : Config) (ew : List String) (now : Int)
    (net : Nat → Resp × Resp) (hw : cfg.warm_start = true)
    (hcap : 1 ≤ cfg.max_posts_per_run) :
    ∀ (feeds : List Feed) (ls : LoopState), ls.posted_count = 0 →
      (processFeeds cfg ew now net ls feeds).2 = ExitKind.normal ∧
      (processFeeds cfg ew now net ls feeds).1.posted_count = 0 ∧
      (processFeeds cfg ew now net ls feeds).1.calls = ls.calls := by
  intro feeds
  induction feeds with
  | nil => intro ls h0; exact ⟨rfl, h0, rfl⟩
  | cons feed rest ih =>
    intro ls h0
    obtain ⟨hs, hp', hc⟩ := processEntries_warm cfg ew now net hw feed ls
    rw [processFeeds_cons]
    rcases hp : processEntries cfg ew now net ls feed with ⟨ls2, sig⟩
    rw [hp] at hs hp' hc
    cases sig with
    | some s => simp at hs
    | none =>
      simp only at hp' hc ⊢
      have hlt : ¬ (cfg.max_posts_per_run ≤ (ls2.posted_count : Int)) := by
        rw [hp', h0]
        omega
      rw [if_neg hlt]
      obtain ⟨a, b, c⟩ := ih ls2 (by rw [hp']; exact h0)
      exact ⟨a, b, by rw [c, hc]⟩

theorem processEntries_delta (cfg : Config) (ew : List String) (now : Int)
    (net : Nat → Resp × Resp) (hw : cfg.warm_start = false) :
    ∀ (entries : List (String × String)) (ls : LoopState),
      (processEntries cfg ew now net ls entries).2 ≠ some StepSignal.failed →
      (processEntries cfg ew now net ls entries).1.new_count + ls.posted_count =
        ls.new_count + (processEntries cfg ew now net ls entries).1.posted_count := by
  intro entries
  induction entries with
  | nil => intro ls h; rfl
  | cons e rest ih =>
    intro ls hsig
    rw [processEntries_cons] at hsig ⊢
    rcases hp : processEntry cfg ew now net ls e with ⟨ls2, sig⟩
    rw [hp] at hsig
    cases sig with
    | none =>
      have hd := processEntry_delta cfg ew now net ls e hw (by rw [hp]; simp)
      rw [hp] at hd
      simp only at hd hsig ⊢
      have h2 := ih ls2 hsig
      omega
    | some s =>
      cases s with
      | failed => exact absurd rfl hsig
      | capped =>
        have hd := processEntry_delta cfg ew now net ls e hw (by rw [hp]; simp)
        rw [hp] at hd
        simpa using hd

theorem processFeeds_delta (cfg : Config) (ew : List String) (now : Int)
    (net : Nat → Resp × Resp) (hw : cfg.warm_start = false) :
    ∀ (feeds : List Feed) (ls : LoopState),
      (processFeeds cfg ew now net ls feeds).2 ≠ ExitKind.failed →
      (processFeeds cfg ew now net ls feeds).1.new_count + ls.posted_count =
        ls.new_count + (processFeeds cfg ew now net ls feeds).1.posted_count := by
  intro feeds
  induction feeds with
  | nil => intro ls h; rfl
  | cons feed rest ih =>
    intro ls hex
    rw [processFeeds_cons] at hex ⊢
    rcases hp : processEntries cfg ew now net ls feed with ⟨ls2, sig⟩
    rw [hp] at hex
    cases sig with
    | some s =>
      cases s with
      | failed => exact absurd rfl hex
      | capped =>
        have hd := processEntries_delta cfg ew now net hw feed ls (by rw [hp]; simp)
        rw [hp] at hd
        simpa using hd
    | none =>
      have hd := processEntries_delta cfg ew now net hw feed ls (by rw [hp]; simp)
      rw [hp] at hd
      simp only at hd hex ⊢
      by_cases hcap : cfg.max_posts_per_run ≤ (ls2.posted_count : Int)
      · rw [if_pos hcap]
        simpa using hd
      · rw [if_neg hcap] at hex ⊢
        have h2 := ih ls2 hex
        omega

theorem processEntries_skip (cfg : Config) (ew : List String) (now : Int)
    (net : Nat → Resp × Resp) :
    ∀ (entries : List (String × String)) (ls : LoopState),
      (∀ e ∈ entries, pyStrip e.1 = "" ∨ pyStrip e.2 = "" ∨
        is_excluded (pyStrip e.1) ew = true ∨
        dictContains ls.state (stable_key (pyStrip e.1) (pyStrip e.2)) = true) →
      processEntries cfg ew now net ls entries = (ls, none) := by
  intro entries
  induction entries with
  | nil => intro ls h; rfl
  | cons e rest ih =>
    intro ls h
    have he := h e (List.mem_cons_self e rest)
    have hskip : processEntry cfg ew now net ls e = (ls, none) := by
      rcases he with h1 | h1 | h1 | h1
      · exact processEntry_skip_empty cfg ew now net ls e (Or.inl h1)
      · exact processEntry_skip_empty cfg ew now net ls e (Or.inr h1)
      · exact processEntry_skip_excluded cfg ew now net ls e h1
      · exact processEntry_skip_contains cfg ew now net ls e h1
    rw [processEntries_cons, hskip]
    exact ih ls (fun e' he' => h e' (List.mem_cons_of_mem e he'))

theorem processFeeds_skip (cfg : Config) (ew : List String) (now : Int)
    (net : Nat → Resp × Resp) :
    ∀ (feeds : List Feed) (ls : LoopState),
      (∀ feed ∈ feeds, ∀ e ∈ feed, pyStrip e.1 = "" ∨ pyStrip e.2 = "" ∨
        is_excluded (pyStrip e.1) ew = true ∨
        dictContains ls.state (stable_key (pyStrip e.1) (pyStrip e.2)) = true) →
      (processFeeds cfg ew now net ls feeds).1 = ls ∧
      (processFeeds cfg ew now net ls feeds).2 ≠ ExitKind.failed := by
  intro feeds
  induction feeds with
  | nil =>
    intro ls h
    refine ⟨rfl, ?_⟩
    rw [processFeeds_nil]
    simp
  | cons feed rest ih =>
    intro ls h
    have hent := processEntries_skip cfg ew now net feed ls
      (h feed (List.mem_cons_self feed rest))
    rw [processFeeds_cons, hent]
    simp only
    by_cases hc : cfg.max_posts_per_run ≤ (ls.posted_count : Int)
    · rw [if_pos hc]
      exact ⟨rfl, by simp⟩
    · rw [if_neg hc]
      exact ih ls (fun f hf => h f (List.mem_cons_of_mem feed hf))

theorem processEntries_complete (cfg : Config) (ew : List String) (now : Int)
    (net : Nat → Resp × Resp) :
    ∀ (entries : List (String × String)) (ls : LoopState) (e : String × String),
      e ∈ entries →
      (processEntries cfg ew now net ls entries).2 = none →
      ¬(pyStrip e.1 = "" ∨ pyStrip e.2 = "") →
      is_excluded (pyStrip e.1) ew = false →
      dictContains (processEntries cfg ew now net ls entries).1.state
        (stable_key (pyStrip e.1) (pyStrip e.2)) = true := by
  intro entries
  induction entries with
  | nil => intro ls e he; exact absurd he (List.not_mem_nil e)
  | cons a rest ih =>
    intro ls e he hsig ht hx
    rw [processEntries_cons] at hsig ⊢
    rcases hp : processEntry cfg ew now net ls a with ⟨ls2, sig⟩
    rw [hp] at hsig
    cases sig with
    | some s => simp at hsig
    | none =>
      rcases List.mem_cons.1 he with rfl | hmem
      · have hrec := processEntry_records cfg ew now net ls e ht hx
        rw [hp] at hrec
        exact processEntries_mono cfg ew now net rest ls2 _ hrec
      · exact ih ls2 e hmem hsig ht hx

theorem processFeeds_complete (cfg : Config) (ew : List String) (now : Int)
    (net : Nat → Resp × Resp) :
    ∀ (feeds : List Feed) (ls : LoopState) (feed : Feed) (e : String × String),
      feed ∈ feeds → e ∈ feed →
      (processFeeds cfg ew now net ls feeds).2 = ExitKind.normal →
      ¬(pyStrip e.1 = "" ∨ pyStrip e.2 = "") →
      is_excluded (pyStrip e.1) ew = false →
      dictContains (processFeeds cfg ew now net ls feeds).1.state
        (stable_key (pyStrip e.1) (pyStrip e.2)) = true := by
  intro feeds
  induction feeds with
  | nil => intro ls feed e hf; exact absurd hf (List.not_mem_nil feed)
  | cons f rest ih =>
    intro ls feed e hf he hex ht hx
    rw [processFeeds_cons] at hex ⊢
    rcases hp : processEntries cfg ew now net ls f with ⟨ls2, sig⟩
    rw [hp] at hex
    cases sig with
    | some s =>
      cases s with
      | failed => simp at hex
      | capped => simp at hex
    | none =>
      simp only at hex ⊢
      by_cases hc : cfg.max_posts_per_run ≤ (ls2.posted_count : Int)
      · rw [if_pos hc] at hex
        simp at hex
      · rw [if_neg hc] at hex ⊢
        rcases List.mem_cons.1 hf with rfl | hfm
        · have hrec := processEntries_complete cfg ew now net feed ls e he
            (by rw [hp]) ht hx
          rw [hp] at hrec
          exact processFeeds_mono cfg ew now net rest ls2 _ hrec
        · exact ih ls2 feed e hfm he hex ht hx

/-! ## `prune_state` as a filter -/

theorem pruneFold_cons (ks : List String) (kv : String × StVal) :
    ∀ (st : Dict), (∀ k ∈ ks, (kv.1 == k) = false) →
      ks.foldl (fun st k => st.eraseP (fun kv' => kv'.1 == k)) (kv :: st) =
        kv :: ks.foldl (fun st k => st.eraseP (fun kv' => kv'.1 == k)) st := by
  induction ks with
  | nil => intro st h; rfl
  | cons k ks ih =>
    intro st h
    simp only [List.foldl_cons]
    rw [List.eraseP_cons_of_neg (by simp [h k (List.mem_cons_self k ks)])]
    exact ih _ (fun k' hk' => h k' (List.mem_cons_of_mem k hk'))

theorem pruneFold_filter (p : String × StVal → Bool) :
    ∀ (st : Dict), (st.map Prod.fst).Nodup →
      ((st.filter p).map Prod.fst).foldl
        (fun s k => s.eraseP (fun kv => kv.1 == k)) st =
        st.filter (fun kv => ! p kv) := by
  intro st
  induction st with
  | nil => intro h; rfl
  | cons kv rest ih =>
    intro hnd
    rw [List.map_cons, List.nodup_cons] at hnd
    obtain ⟨hnk, hndr⟩ := hnd
    by_cases hp : p kv = true
    · rw [List.filter_cons_of_pos hp, List.map_cons, List.foldl_cons]
      rw [List.eraseP_cons_of_pos (by simp), List.filter_cons_of_neg (by simp [hp])]
      exact ih hndr
    · rw [List.filter_cons_of_neg hp, List.filter_cons_of_pos (by simp [hp])]
      rw [pruneFold_cons _ kv rest ?hne]
      case hne =>
        intro k hk
        obtain ⟨kv', hm', he'⟩ := List.mem_map.1 hk
        have : kv'.1 ∈ rest.map Prod.fst :=
          List.mem_map_of_mem _ (List.mem_of_mem_filter hm')
        rw [he'] at this
        simp only [beq_eq_false_iff_ne]
        exact fun hc => hnk (hc ▸ this)
      rw [ih hndr]

/-- Under distinct keys (a Python `dict` invariant), `prune_state` is the
filter keeping exactly the entries that are not old integer timestamps. -/
theorem prune_state_eq_filter (state : Dict) (now_ts days : Int)
    (hnd : (state.map Prod.fst).Nodup) :
    prune_state state now_ts days =
      state.filter (fun kv => ! isOldEntry (now_ts - days * 24 * 60 * 60) kv) :=
  pruneFold_filter (isOldEntry (now_ts - days * 24 * 60 * 60)) state hnd

/-! ## `strip` and the digest as functions of the trimmed inputs -/

theorem dropWhile_append_of_all {p : Char → Bool} {a : List Char} (b : List Char)
    (h : ∀ c ∈ a, p c = true) : (a ++ b).dropWhile p = b.dropWhile p := by
  induction a with
  | nil => rfl
  | cons c a ih =>
    rw [List.cons_append, List.dropWhile_cons_of_pos (h c (List.mem_cons_self c a))]
    exact ih (fun c' hc' => h c' (List.mem_cons_of_mem c hc'))

/-- `str.strip()` ignores leading and trailing whitespace. -/
theorem trimList_pad (ws1 ws2 l : List Char)
    (h1 : ∀ c ∈ ws1, c.isWhitespace = true)
    (h2 : ∀ c ∈ ws2, c.isWhitespace = true) :
    trimList (ws1 ++ l ++ ws2) = trimList l := by
  unfold trimList
  rw [List.append_assoc, dropWhile_append_of_all (l ++ ws2) h1]
  rcases hd : l.dropWhile Char.isWhitespace with _ | ⟨c, d⟩
  · have hall : ∀ c ∈ l, Char.isWhitespace c = true := List.dropWhile_eq_nil_iff.1 hd
    rw [dropWhile_append_of_all ws2 hall]
    have hw2 : ws2.dropWhile Char.isWhitespace = [] := List.dropWhile_eq_nil_iff.2 h2
    rw [hw2]
  · rw [List.dropWhile_append, hd]
    simp only [List.isEmpty_cons, Bool.false_eq_true, if_false]
    rw [List.reverse_append]
    rw [dropWhile_append_of_all (c :: d).reverse
      (fun x hx => h2 x (List.mem_reverse.1 hx))]

/-! ## The hex digest determines the digest words -/

theorem hexCharLower_inj16 : ∀ a < 16, ∀ b < 16,
    hexCharLower a = hexCharLower b → a = b := by decide

theorem wordToHex_length (w : Nat) : (wordToHex w).length = 8 := rfl

theorem wordToHex_inj {w1 w2 : Nat} (h1 : w1 < 4294967296) (h2 : w2 < 4294967296)
    (h : wordToHex w1 = wordToHex w2) : w1 = w2 := by
  unfold wordToHex at h
  simp only [List.cons.injEq, and_true] at h
  obtain ⟨e1, e2, e3, e4, e5, e6, e7, e8⟩ := h
  have n1 := hexCharLower_inj16 _ (Nat.mod_lt _ (by norm_num)) _ (Nat.mod_lt _ (by norm_num)) e1
  have n2 := hexCharLower_inj16 _ (Nat.mod_lt _ (by norm_num)) _ (Nat.mod_lt _ (by norm_num)) e2
  have n3 := hexCharLower_inj16 _ (Nat.mod_lt _ (by norm_num)) _ (Nat.mod_lt _ (by norm_num)) e3
  have n4 := hexCharLower_inj16 _ (Nat.mod_lt _ (by norm_num)) _ (Nat.mod_lt _ (by norm_num)) e4
  have n5 := hexCharLower_inj16 _ (Nat.mod_lt _ (by norm_num)) _ (Nat.mod_lt _ (by norm_num)) e5
  have n6 := hexCharLower_inj16 _ (Nat.mod_lt _ (by norm_num)) _ (Nat.mod_lt _ (by norm_num)) e6
  have n7 := hexCharLower_inj16 _ (Nat.mod_lt _ (by norm_num)) _ (Nat.mod_lt _ (by norm_num)) e7
  have n8 := hexCharLower_inj16 _ (Nat.mod_lt _ (by norm_num)) _ (Nat.mod_lt _ (by norm_num)) e8
  rw [Nat.shiftRight_eq_div_pow] at n1 n2 n3 n4 n5 n6 n7
  norm_num at n1 n2 n3 n4 n5 n6 n7
  omega

theorem flatMap_wordToHex_inj :
    ∀ (l1 l2 : List Nat), l1.length = l2.length →
      (∀ x ∈ l1, x < 4294967296) → (∀ x ∈ l2, x < 4294967296) →
      l1.flatMap wordToHex = l2.flatMap wordToHex → l1 = l2 := by
  intro l1
  induction l1 with
  | nil =>
    intro l2 hl _ _ _
    cases l2 with
    | nil => rfl
    | cons b t2 => simp at hl
  | cons a t ih =>
    intro l2 hl hb1 hb2 he
    cases l2 with
    | nil => simp at hl
    | cons b t2 =>
      simp only [List.flatMap_cons] at he
      obtain ⟨hh, ht⟩ := List.append_inj he (by rw [wordToHex_length, wordToHex_length])
      rw [wordToHex_inj (hb1 a (List.mem_cons_self a t)) (hb2 b (List.mem_cons_self b t2)) hh]
      rw [ih t2 (by simpa using hl) (fun x hx => hb1 x (List.mem_cons_of_mem a hx))
        (fun x hx => hb2 x (List.mem_cons_of_mem b hx)) ht]

theorem sha256Round_length (ws st : List Nat) (i : Nat) :
    (sha256Round ws st i).length = st.length := by
  unfold sha256Round
  split
  · rfl
  · rfl

theorem foldl_sha256Round_length (ws : List Nat) :
    ∀ (l : List Nat) (st : List Nat),
      (l.foldl (sha256Round ws) st).length = st.length := by
  intro l
  induction l with
  | nil => intro st; rfl
  | cons i t ih =>
    intro st
    rw [List.foldl_cons, ih, sha256Round_length]

theorem sha256Compress_length (h block : List Nat) (hl : h.length = 8) :
    (sha256Compress h block).length = 8 := by
  unfold sha256Compress
  rw [List.length_map, List.length_zip, foldl_sha256Round_length, hl, min_self]

theorem sha256Compress_lt (h block : List Nat) :
    ∀ x ∈ sha256Compress h block, x < 4294967296 := by
  intro x hx
  unfold sha256Compress at hx
  obtain ⟨p, hp, he⟩ := List.mem_map.1 hx
  rw [← he]
  exact Nat.mod_lt _ (by norm_num)

theorem foldl_compress_inv :
    ∀ (cs : List (List Nat)) (h : List Nat), h.length = 8 →
      (∀ x ∈ h, x < 4294967296) →
      (cs.foldl sha256Compress h).length = 8 ∧
      ∀ x ∈ cs.foldl sha256Compress h, x < 4294967296 := by
  intro cs
  induction cs with
  | nil => intro h hl hb; exact ⟨hl, hb⟩
  | cons c t ih =>
    intro h hl hb
    rw [List.foldl_cons]
    exact ih _ (sha256Compress_length h c hl) (sha256Compress_lt h c)

theorem sha256Words_spec (msg : List Nat) :
    (sha256Words msg).length = 8 ∧ ∀ x ∈ sha256Words msg, x < 4294967296 :=
  foldl_compress_inv (chunks64 (sha256Pad msg)) sha256H0 rfl (by decide)

/-- Equal hex digests come from equal digest words: two digests differ
whenever the underlying SHA-256 words differ. -/
theorem sha256Hex_inj (m1 m2 : List Nat)
    (h : sha256Hex m1 = sha256Hex m2) : sha256Words m1 = sha256Words m2 := by
  have hdata : (sha256Words m1).flatMap wordToHex = (sha256Words m2).flatMap wordToHex :=
    congrArg String.data h
  exact flatMap_wordToHex_inj _ _
    (by rw [(sha256Words_spec m1).1, (sha256Words_spec m2).1])
    (sha256Words_spec m1).2 (sha256Words_spec m2).2 hdata

/-! ## `is_excluded` characterization -/

theorem lowerList_infix {w t : List Char} (h : w <:+: t) :
    lowerList w <:+: lowerList t :=
  h.map asciiLower

theorem is_excluded_iff (title : String) (ew : List String) :
    is_excluded title ew = true ↔
      (trimList title.data = [] ∨ ∃ w ∈ ew, w.data ≠ [] ∧
        lowerList w.data <:+: lowerList (trimList title.data)) := by
  unfold is_excluded
  simp only
  by_cases he : (trimList title.data).isEmpty
  · rw [if_pos he]
    rw [List.isEmpty_iff] at he
    simp [he]
  · rw [if_neg he]
    rw [List.isEmpty_iff] at he
    rw [List.any_eq_true]
    constructor
    · rintro ⟨w, hw, hcond⟩
      simp only [Bool.and_eq_true, Bool.not_eq_true', List.isEmpty_iff,
        Bool.or_eq_true, decide_eq_true_eq] at hcond
      obtain ⟨hne, hor⟩ := hcond
      refine Or.inr ⟨w, hw, List.isEmpty_eq_false.mp hne, ?_⟩
      rcases hor with hcs | hci
      · exact lowerList_infix hcs
      · exact hci
    · rintro (hnil | ⟨w, hw, hne, hci⟩)
      · exact absurd hnil he
      · refine ⟨w, hw, ?_⟩
        simp only [Bool.and_eq_true, Bool.not_eq_true', List.isEmpty_iff,
          Bool.or_eq_true, decide_eq_true_eq]
        exact ⟨List.isEmpty_eq_false.mpr hne, Or.inr hci⟩

theorem perm_any_eq {α : Type} {l1 l2 : List α} (p : α → Bool) (h : l1.Perm l2) :
    l1.any p = l2.any p := by
  cases h1 : l1.any p
  · cases h2 : l2.any p
    · rfl
    · rw [List.any_eq_true] at h2
      rw [List.any_eq_false] at h1
      obtain ⟨w, hw, hc⟩ := h2
      exact absurd hc (by simp [h1 w (h.mem_iff.2 hw)])
  · cases h2 : l2.any p
    · rw [List.any_eq_true] at h1
      rw [List.any_eq_false] at h2
      obtain ⟨w, hw, hc⟩ := h1
      exact absurd hc (by simp [h2 w (h.mem_iff.1 hw)])
    · rfl

theorem is_excluded_perm (title : String) {ew1 ew2 : List String}
    (h : ew1.Perm ew2) :
    is_excluded title ew1 = is_excluded title ew2 := by
  unfold is_excluded
  simp only
  split
  · rfl
  · exact perm_any_eq _ h

/-! ## Concrete fixtures for witnesses -/

/-- A webhook that answers 200 to every call. -/
def netOK : Nat → Resp × Resp := fun _ => (⟨200, none⟩, ⟨200, none⟩)

/-- A webhook that answers 500 to every call (and to the retry). -/
def net500 : Nat → Resp × Resp := fun _ => (⟨500, none⟩, ⟨500, none⟩)

/-- A configuration with a set webhook, warm start off, and a per-run cap of 1. -/
def cfgCap1 : Config := ⟨"https://hooks.example/x", false, 1, 90⟩

/-- One feed with two distinct qualifying entries. -/
def feedsAB : List Feed := [[("News A", "https://e.com/a"), ("News B", "https://e.com/b")]]

/-! ## The claims -/

/-- Claim C1 (corrected): the controller records an item's key before the cap
check, but it also posts the item before the cap check, so no completed
non-dry-run leaves an item marked seen yet undelivered: whenever the run does
not fail, `new_count = posted_count` — every key recorded this run was also
delivered this run. The second half of the claim holds: once the cap signal
fires, all remaining entries of the feed and all remaining feeds are skipped. -/
theorem claim_C1 :
    (∀ (cfg : Config) (feeds : List Feed) (ew : List String) (st0 : Dict)
        (now : Int) (net : Nat → Resp × Resp),
      cfg.warm_start = false →
      (mainRun cfg feeds ew st0 now net).exit ≠ ExitKind.failed →
      (mainRun cfg feeds ew st0 now net).mem.new_count =
        (mainRun cfg feeds ew st0 now net).mem.posted_count) ∧
    (∀ (cfg : Config) (ew : List String) (now : Int) (net : Nat → Resp × Resp)
        (ls : LoopState) (e : String × String) (rest : List (String × String))
        (ls2 : LoopState),
      processEntry cfg ew now net ls e = (ls2, some StepSignal.capped) →
      processEntries cfg ew now net ls (e :: rest) = (ls2, some StepSignal.capped)) ∧
    (∀ (cfg : Config) (ew : List String) (now : Int) (net : Nat → Resp × Resp)
        (ls : LoopState) (feed : Feed) (rest : List Feed) (ls2 : LoopState),
      processEntries cfg ew now net ls feed = (ls2, some StepSignal.capped) →
      processFeeds cfg ew now net ls (feed :: rest) = (ls2, ExitKind.capped)) := by
  refine ⟨?_, ?_, ?_⟩
  · intro cfg feeds ew st0 now net hw hex
    unfold mainRun at hex ⊢
    by_cases hcfg : cfg.slack_webhook_url = "" ∧ cfg.warm_start = false
    · rw [if_pos hcfg] at hex
      exact absurd rfl hex
    · rw [if_neg hcfg] at hex ⊢
      simp only at hex ⊢
      rcases hr : processFeeds cfg ew now net
          ⟨prune_state st0 now cfg.prune_days, 0, 0, 0⟩ feeds with ⟨ls, ex⟩
      rw [hr] at hex
      cases ex with
      | failed => exact absurd rfl hex
      | normal =>
        have hd := processFeeds_delta cfg ew now net hw feeds
          ⟨prune_state st0 now cfg.prune_days, 0, 0, 0⟩ (by rw [hr]; simp)
        rw [hr] at hd
        have hd2 : ls.new_count + 0 = 0 + ls.posted_count := hd
        show ls.new_count = ls.posted_count
        omega
      | capped =>
        have hd := processFeeds_delta cfg ew now net hw feeds
          ⟨prune_state st0 now cfg.prune_days, 0, 0, 0⟩ (by rw [hr]; simp)
        rw [hr] at hd
        have hd2 : ls.new_count + 0 = 0 + ls.posted_count := hd
        show ls.new_count = ls.posted_count
        omega
  · intro cfg ew now net ls e rest ls2 h
    exact processEntries_signal cfg ew now net ls e rest ls2 StepSignal.capped h
  · intro cfg ew now net ls feed rest ls2 h
    exact processFeeds_capped_of_entries cfg ew now net ls feed rest ls2 h

/-- Claim C2: a notification failure (non-2xx after the single retry) raises
out of the run: the entry branch signals failure, the signal propagates
through both loops, and `main` then neither writes the state file nor prints
the summary line, so in-memory progress is lost and those items are
re-evaluated next run. -/
theorem claim_C2 :
    (∀ (cfg : Config) (ew : List String) (now : Int) (net : Nat → Resp × Resp)
        (ls : LoopState) (e : String × String) (st : Nat),
      cfg.warm_start = false →
      ¬(pyStrip e.1 = "" ∨ pyStrip e.2 = "") →
      is_excluded (pyStrip e.1) ew = false →
      dictContains ls.state (stable_key (pyStrip e.1) (pyStrip e.2)) = false →
      (post_to_slack (net ls.calls).1 (net ls.calls).2).outcome = Except.error st →
      (processEntry cfg ew now net ls e).2 = some StepSignal.failed) ∧
    (∀ (cfg : Config) (ew : List String) (now : Int) (net : Nat → Resp × Resp)
        (ls : LoopState) (e : String × String) (rest : List (String × String))
        (ls2 : LoopState),
      processEntry cfg ew now net ls e = (ls2, some StepSignal.failed) →
      processEntries cfg ew now net ls (e :: rest) = (ls2, some StepSignal.failed)) ∧
    (∀ (cfg : Config) (ew : List String) (now : Int) (net : Nat → Resp × Resp)
        (ls : LoopState) (feed : Feed) (rest : List Feed) (ls2 : LoopState),
      processEntries cfg ew now net ls feed = (ls2, some StepSignal.failed) →
      processFeeds cfg ew now net ls (feed :: rest) = (ls2, ExitKind.failed)) ∧
    (∀ (cfg : Config) (feeds : List Feed) (ew : List String) (st0 : Dict)
        (now : Int) (net : Nat → Resp × Resp),
      (mainRun cfg feeds ew st0 now net).exit = ExitKind.failed →
      (mainRun cfg feeds ew st0 now net).fileState = none ∧
      (mainRun cfg feeds ew st0 now net).printed = none ∧
      (mainRun cfg feeds ew st0 now net).raised = true) := by
  refine ⟨?_, ?_, ?_, ?_⟩
  · intro cfg ew now net ls e st hw h1 h2 h3 ho
    rw [processEntry_main cfg ew now net ls e h1 h2 h3 hw, ho]
  · intro cfg ew now net ls e rest ls2 h
    exact processEntries_signal cfg ew now net ls e rest ls2 StepSignal.failed h
  · intro cfg ew now net ls feed rest ls2 h
    exact processFeeds_failed_of_entries cfg ew now net ls feed rest ls2 h
  · intro cfg feeds ew st0 now net hex
    unfold mainRun at hex ⊢
    by_cases hcfg : cfg.slack_webhook_url = "" ∧ cfg.warm_start = false
    · rw [if_pos hcfg]
      exact ⟨rfl, rfl, rfl⟩
    · rw [if_neg hcfg] at hex ⊢
      simp only at hex ⊢
      rcases hr : processFeeds cfg ew now net
          ⟨prune_state st0 now cfg.prune_days, 0, 0, 0⟩ feeds with ⟨ls, ex⟩
      rw [hr] at hex
      cases ex with
      | failed => exact ⟨rfl, rfl, rfl⟩
      | normal =>
        have hc : ExitKind.normal = ExitKind.failed := hex
        exact absurd hc (by decide)
      | capped =>
        have hc : ExitKind.capped = ExitKind.failed := hex
        exact absurd hc (by decide)

/-- Claim C9: `post_to_slack` makes one attempt, or exactly two when the
first answer is 429; on 429 it waits `max 1 (Retry-After or default 2)` —
always at least 1 — and the outcome is the raise-for-status of the final
response, where raising happens exactly on status 400–599. -/
theorem claim_C9 (r1 r2 : Resp) :
    (post_to_slack r1 r2).attempts = (if r1.status = 429 then 2 else 1) ∧
    (post_to_slack r1 r2).attempts ≤ 2 ∧
    (r1.status = 429 →
      (post_to_slack r1 r2).waited = some (max 1 (r1.retryAfter.getD 2)) ∧
      (∀ w, (post_to_slack r1 r2).waited = some w → 1 ≤ w) ∧
      (post_to_slack r1 r2).outcome = raise_for_status r2.status) ∧
    (r1.status ≠ 429 →
      (post_to_slack r1 r2).waited = none ∧
      (post_to_slack r1 r2).outcome = raise_for_status r1.status) ∧
    (∀ st : Nat, raise_for_status st = Except.error st ↔ (400 ≤ st ∧ st < 600)) := by
  unfold post_to_slack
  by_cases h : r1.status = 429
  · rw [if_pos h]
    refine ⟨by rw [if_pos h], by norm_num, ?_, ?_, ?_⟩
    · intro _
      refine ⟨rfl, ?_, rfl⟩
      intro w hw
      have hw2 : max 1 (r1.retryAfter.getD 2) = w := by
        injection hw
      omega
    · intro hc
      exact absurd h hc
    · intro st
      unfold raise_for_status
      by_cases hs : 400 ≤ st ∧ st < 600
      · rw [if_pos hs]
        simp [hs]
      · rw [if_neg hs]
        simp [hs]
  · rw [if_neg h]
    refine ⟨by rw [if_neg h], by norm_num, ?_, ?_, ?_⟩
    · intro hc
      exact absurd hc h
    · intro _
      exact ⟨rfl, rfl⟩
    · intro st
      unfold raise_for_status
      by_cases hs : 400 ≤ st ∧ st < 600
      · rw [if_pos hs]
        simp [hs]
      · rw [if_neg hs]
        simp [hs]

/-- Claim C3: `stable_key` is deterministic, a function of the stripped title
alone (invariant under leading/trailing title whitespace), invariant under
tracking-parameter differences in the link (URLs whose parses agree except
for dropped `utm_*`/`fbclid`/`gclid` parameters give the same key), and two
pairs get the same key only when their digest words collide — in particular
distinct digests give distinct keys. -/
theorem claim_C3 :
    (∀ (t u : String), stable_key t u = stable_key t u) ∧
    (∀ (t1 t2 u : String), trimList t1.data = trimList t2.data →
      stable_key t1 u = stable_key t2 u) ∧
    (∀ (t u : String) (ws1 ws2 : List Char),
      (∀ c ∈ ws1, c.isWhitespace = true) → (∀ c ∈ ws2, c.isWhitespace = true) →
      stable_key ⟨ws1 ++ t.data ++ ws2⟩ u = stable_key t u) ∧
    (∀ (t u1 u2 : String),
      (pyUrlparse u1.data).scheme = (pyUrlparse u2.data).scheme →
      (pyUrlparse u1.data).netloc = (pyUrlparse u2.data).netloc →
      (pyUrlparse u1.data).path = (pyUrlparse u2.data).path →
      (pyUrlparse u1.data).params = (pyUrlparse u2.data).params →
      (pyUrlparse u1.data).fragment = (pyUrlparse u2.data).fragment →
      dropTracking (parse_qsl (pyUrlparse u1.data).query) =
        dropTracking (parse_qsl (pyUrlparse u2.data).query) →
      stable_key t u1 = stable_key t u2) ∧
    (∀ (t1 u1 t2 u2 : String), stable_key t1 u1 = stable_key t2 u2 →
      sha256Words (keyBase t1 u1) = sha256Words (keyBase t2 u2)) := by
  refine ⟨fun t u => rfl, ?_, ?_, ?_, fun t1 u1 t2 u2 h => sha256Hex_inj _ _ h⟩
  · intro t1 t2 u h
    show sha256Hex (utf8Encode (trimList (normalize_url u).data ++ '\n' :: trimList t1.data)) =
      sha256Hex (utf8Encode (trimList (normalize_url u).data ++ '\n' :: trimList t2.data))
    rw [h]
  · intro t u ws1 ws2 h1 h2
    show sha256Hex (utf8Encode (trimList (normalize_url u).data ++
        '\n' :: trimList (ws1 ++ t.data ++ ws2))) =
      sha256Hex (utf8Encode (trimList (normalize_url u).data ++ '\n' :: trimList t.data))
    rw [trimList_pad ws1 ws2 t.data h1 h2]
  · intro t u1 u2 h1 h2 h3 h4 h5 hq
    have hn : normalizeList u1.data = normalizeList u2.data :=
      normalizeList_congr h1 h2 h3 h4 h5 hq
    show sha256Hex (utf8Encode (trimList (normalizeList u1.data) ++ '\n' :: trimList t.data)) =
      sha256Hex (utf8Encode (trimList (normalizeList u2.data) ++ '\n' :: trimList t.data))
    rw [hn]

/-- Claim C4: normalizing leaves the scheme, authority, path, params and
fragment of the URL unchanged, and replaces the query by exactly the
non-tracking parameters, in their original order with blank values kept; a
tracking key is one whose lowercasing starts with `utm_` or equals `fbclid`
or `gclid`. -/
theorem claim_C4 (url : String) :
    (pyUrlparse (normalize_url url).data).scheme = (pyUrlparse url.data).scheme ∧
    (pyUrlparse (normalize_url url).data).netloc = (pyUrlparse url.data).netloc ∧
    (pyUrlparse (normalize_url url).data).path = (pyUrlparse url.data).path ∧
    (pyUrlparse (normalize_url url).data).params = (pyUrlparse url.data).params ∧
    (pyUrlparse (normalize_url url).data).fragment = (pyUrlparse url.data).fragment ∧
    parse_qsl (pyUrlparse (normalize_url url).data).query =
      (parse_qsl (pyUrlparse url.data).query).filter (fun kv => ! trackingKey kv.1) ∧
    (∀ k : List Char, trackingKey k = true ↔
      ("utm_".data.isPrefixOf (lowerList k) = true ∨ lowerList k = "fbclid".data ∨
        lowerList k = "gclid".data)) := by
  have hp := pyUrlparse_normalizeList url.data
  have hs : (normalize_url url).data = normalizeList url.data := rfl
  rw [hs, hp]
  refine ⟨rfl, rfl, rfl, rfl, rfl, ?_, ?_⟩
  · show parse_qsl (urlencode (dropTracking (parse_qsl (pyUrlparse url.data).query))) = _
    rw [parse_qsl_urlencode]
    rfl
  · intro k
    unfold trackingKey
    simp only [Bool.or_eq_true, decide_eq_true_eq]
    exact or_assoc

/-- Claim C5: `normalize_url` is idempotent, and two URLs that agree outside
the query and whose query parameters agree once tracking parameters
(`utm_*`, `fbclid`, `gclid`) are dropped — in particular a URL with such
parameters injected anywhere into its query — normalize identically. -/
theorem claim_C5 :
    (∀ url : String, normalize_url (normalize_url url) = normalize_url url) ∧
    (∀ u1 u2 : String,
      (pyUrlparse u1.data).scheme = (pyUrlparse u2.data).scheme →
      (pyUrlparse u1.data).netloc = (pyUrlparse u2.data).netloc →
      (pyUrlparse u1.data).path = (pyUrlparse u2.data).path →
      (pyUrlparse u1.data).params = (pyUrlparse u2.data).params →
      (pyUrlparse u1.data).fragment = (pyUrlparse u2.data).fragment →
      dropTracking (parse_qsl (pyUrlparse u1.data).query) =
        dropTracking (parse_qsl (pyUrlparse u2.data).query) →
      normalize_url u1 = normalize_url u2) := by
  refine ⟨normalize_url_idem, ?_⟩
  intro u1 u2 h1 h2 h3 h4 h5 hq
  exact congrArg String.mk (normalizeList_congr h1 h2 h3 h4 h5 hq)

/-- Claim C6: `is_excluded` is true exactly when the stripped title is empty
or some non-empty pattern occurs in it case-insensitively; the case-sensitive
check is subsumed (an infix stays an infix after lowercasing both sides), and
the result is invariant under permuting the pattern list. -/
theorem claim_C6 :
    (∀ (title : String) (ew : List String), is_excluded title ew = true ↔
      (trimList title.data = [] ∨ ∃ w ∈ ew, w.data ≠ [] ∧
        lowerList w.data <:+: lowerList (trimList title.data))) ∧
    (∀ (w t : List Char), w <:+: t → lowerList w <:+: lowerList t) ∧
    (∀ (title : String) (ew1 ew2 : List String), ew1.Perm ew2 →
      is_excluded title ew1 = is_excluded title ew2) :=
  ⟨is_excluded_iff, fun _ _ h => lowerList_infix h, fun title _ _ h => is_excluded_perm title h⟩

/-- Claim C7: under the dictionary invariant of distinct keys, pruning
removes exactly the entries whose value is an integer timestamp strictly
below `now - days*24*60*60`; newer integer entries and non-integer entries
survive unchanged (the run controller's prune keeps everything else in
place). -/
theorem claim_C7 (state : Dict) (now_ts days : Int)
    (hnd : (state.map Prod.fst).Nodup) :
    prune_state state now_ts days =
      state.filter (fun kv => ! isOldEntry (now_ts - days * 24 * 60 * 60) kv) ∧
    (∀ (k : String) (v : Int), v < now_ts - days * 24 * 60 * 60 →
      (k, StVal.vint v) ∉ prune_state state now_ts days) ∧
    (∀ kv ∈ state, isOldEntry (now_ts - days * 24 * 60 * 60) kv = false →
      kv ∈ prune_state state now_ts days) := by
  have hf := prune_state_eq_filter state now_ts days hnd
  refine ⟨hf, ?_, ?_⟩
  · intro k v hv hmem
    rw [hf] at hmem
    have hkeep := (List.mem_filter.1 hmem).2
    simp only [Bool.not_eq_true'] at hkeep
    rw [show isOldEntry (now_ts - days * 24 * 60 * 60) (k, StVal.vint v) =
      decide (v < now_ts - days * 24 * 60 * 60) from rfl] at hkeep
    simp [hv] at hkeep
  · intro kv hm hold
    rw [hf]
    exact List.mem_filter.2 ⟨hm, by simp [hold]⟩

/-- Claim C8: first-seen semantics — an entry whose key is already in the
state is skipped entirely (state, counters and call count untouched, no
notification), and a run whose entries all carry already-recorded keys (or
are empty/excluded) over an unpruned state saves that state back unchanged
and prints `new=0 posted=0`. -/
theorem claim_C8 :
    (∀ (cfg : Config) (ew : List String) (now : Int) (net : Nat → Resp × Resp)
        (ls : LoopState) (e : String × String),
      dictContains ls.state (stable_key (pyStrip e.1) (pyStrip e.2)) = true →
      processEntry cfg ew now net ls e = (ls, none)) ∧
    (∀ (cfg : Config) (feeds : List Feed) (ew : List String) (st0 : Dict)
        (now : Int) (net : Nat → Resp × Resp),
      ¬(cfg.slack_webhook_url = "" ∧ cfg.warm_start = false) →
      prune_state st0 now cfg.prune_days = st0 →
      (∀ feed ∈ feeds, ∀ e ∈ feed, pyStrip e.1 = "" ∨ pyStrip e.2 = "" ∨
        is_excluded (pyStrip e.1) ew = true ∨
        dictContains st0 (stable_key (pyStrip e.1) (pyStrip e.2)) = true) →
      (mainRun cfg feeds ew st0 now net).fileState = some st0 ∧
      (mainRun cfg feeds ew st0 now net).printed = some (0, 0, cfg.warm_start) ∧
      (mainRun cfg feeds ew st0 now net).raised = false) := by
  refine ⟨processEntry_skip_contains, ?_⟩
  intro cfg feeds ew st0 now net hcfg hprune hskip
  unfold mainRun
  rw [if_neg hcfg]
  simp only
  rw [hprune]
  obtain ⟨h1, h2⟩ := processFeeds_skip cfg ew now net feeds ⟨st0, 0, 0, 0⟩ hskip
  rcases hr : processFeeds cfg ew now net ⟨st0, 0, 0, 0⟩ feeds with ⟨ls, ex⟩
  rw [hr] at h1 h2
  have hls : ls = ⟨st0, 0, 0, 0⟩ := h1
  cases ex with
  | failed => exact absurd rfl h2
  | normal =>
    rw [hls]
    exact ⟨rfl, rfl, rfl⟩
  | capped =>
    rw [hls]
    exact ⟨rfl, rfl, rfl⟩

/-- Claim C10: with warm start on, the notification/cap branch of the entry
loop is never reached, so `posted_count` stays 0 and no webhook call is made;
if the cap is at least 1 the outer cap check never fires either, the run
exits normally, saves, and every qualifying new entry of every feed has its
key recorded in the final state. -/
theorem claim_C10 (cfg : Config) (feeds : List Feed) (ew : List String)
    (st0 : Dict) (now : Int) (net : Nat → Resp × Resp)
    (hw : cfg.warm_start = true) (hcap : 1 ≤ cfg.max_posts_per_run) :
    (mainRun cfg feeds ew st0 now net).mem.posted_count = 0 ∧
    (mainRun cfg feeds ew st0 now net).mem.calls = 0 ∧
    (mainRun cfg feeds ew st0 now net).exit = ExitKind.normal ∧
    (mainRun cfg feeds ew st0 now net).raised = false ∧
    (mainRun cfg feeds ew st0 now net).fileState =
      some (mainRun cfg feeds ew st0 now net).mem.state ∧
    ∀ feed ∈ feeds, ∀ e ∈ feed,
      pyStrip e.1 ≠ "" → pyStrip e.2 ≠ "" →
      is_excluded (pyStrip e.1) ew = false →
      dictContains (mainRun cfg feeds ew st0 now net).mem.state
        (stable_key (pyStrip e.1) (pyStrip e.2)) = true := by
  have hcfg : ¬(cfg.slack_webhook_url = "" ∧ cfg.warm_start = false) := by
    rintro ⟨_, hc⟩
    rw [hw] at hc
    cases hc
  unfold mainRun
  rw [if_neg hcfg]
  simp only
  obtain ⟨hex, hp0, hc0⟩ := processFeeds_warm cfg ew now net hw hcap feeds
    ⟨prune_state st0 now cfg.prune_days, 0, 0, 0⟩ rfl
  rcases hr : processFeeds cfg ew now net
      ⟨prune_state st0 now cfg.prune_days, 0, 0, 0⟩ feeds with ⟨ls, ex⟩
  rw [hr] at hex hp0 hc0
  have hex2 : ex = ExitKind.normal := hex
  subst hex2
  refine ⟨hp0, hc0, rfl, rfl, rfl, ?_⟩
  intro feed hf e he ht1 ht2 hx
  have hrec := processFeeds_complete cfg ew now net feeds
    ⟨prune_state st0 now cfg.prune_days, 0, 0, 0⟩ feed e hf he
    (by rw [hr]) (fun hc => hc.elim ht1 ht2) hx
  rw [hr] at hrec
  exact hrec

/-! ## Witnesses: the claims at concrete inputs -/

/-- A configuration with a set webhook, warm start off, and a high cap. -/
def cfgW : Config := ⟨"https://hooks.example/x", false, 1000, 90⟩

set_option maxRecDepth 1000000 in
/-- Claim C1 at a concrete completed run: the counters agree. -/
theorem claim_C1_witness :
    (mainRun cfgW [[("News A", "https://e.com/a")]] [] [] 1000 netOK).mem.new_count =
      (mainRun cfgW [[("News A", "https://e.com/a")]] [] [] 1000 netOK).mem.posted_count :=
  claim_C1.1 cfgW [[("News A", "https://e.com/a")]] [] [] 1000 netOK rfl (by decide)

set_option maxRecDepth 1000000 in
/-- Claim C1, the spec's cap-exceeded scenario evaluated: cap 1 and two
qualifying new entries give `new = posted = 1` with a capped exit — the one
recorded item was delivered, and the item stopped by the cap was never
marked seen, contradicting the claimed seen-but-undelivered item. -/
theorem claim_C1_counterexample :
    (mainRun cfgCap1 feedsAB [] [] 1000 netOK).mem.new_count = 1 ∧
    (mainRun cfgCap1 feedsAB [] [] 1000 netOK).mem.posted_count = 1 ∧
    (mainRun cfgCap1 feedsAB [] [] 1000 netOK).exit = ExitKind.capped ∧
    dictContains (mainRun cfgCap1 feedsAB [] [] 1000 netOK).mem.state
      (stable_key "News A" "https://e.com/a") = true ∧
    dictContains (mainRun cfgCap1 feedsAB [] [] 1000 netOK).mem.state
      (stable_key "News B" "https://e.com/b") = false := by
  decide

set_option maxRecDepth 1000000 in
/-- Claim C2 at a concrete failing run: nothing saved, nothing printed. -/
theorem claim_C2_witness :
    (mainRun cfgCap1 [[("News A", "https://e.com/a")]] [] [] 1000 net500).fileState = none ∧
    (mainRun cfgCap1 [[("News A", "https://e.com/a")]] [] [] 1000 net500).printed = none ∧
    (mainRun cfgCap1 [[("News A", "https://e.com/a")]] [] [] 1000 net500).raised = true :=
  claim_C2.2.2.2 cfgCap1 [[("News A", "https://e.com/a")]] [] [] 1000 net500 (by decide)

/-- Claim C3 at concrete links differing only by tracking parameters. -/
theorem claim_C3_witness :
    stable_key "News" "https://e.com/a?x=1&utm_source=s&b=" =
      stable_key "News" "https://e.com/a?utm_q=zz&x=1&b=&gclid=g" := by
  refine claim_C3.2.2.2.1 "News" _ _ ?_ ?_ ?_ ?_ ?_ ?_ <;> decide

/-- Claim C5 at a concrete link with injected tracking parameters. -/
theorem claim_C5_witness :
    normalize_url "https://news.example/p?id=7&utm_campaign=x&fbclid=f" =
      normalize_url "https://news.example/p?id=7" := by
  refine claim_C5.2 _ _ ?_ ?_ ?_ ?_ ?_ ?_ <;> decide

/-- Claim C6 at a concrete permutation of the pattern list. -/
theorem claim_C6_witness :
    is_excluded "Breaking News" ["funeral", "obit"] =
      is_excluded "Breaking News" ["obit", "funeral"] :=
  claim_C6.2.2 "Breaking News" _ _ (by decide)

/-- Claim C7 at the spec's pruning scenario: `now - 91` days is dropped,
`now - 89` days and a non-integer entry survive. -/
theorem claim_C7_witness :
    prune_state [("old", StVal.vint 2137600), ("new", StVal.vint 2310400),
        ("note", StVal.vstr "x")] 10000000 90 =
      [("new", StVal.vint 2310400), ("note", StVal.vstr "x")] := by
  have h := claim_C7 [("old", StVal.vint 2137600), ("new", StVal.vint 2310400),
    ("note", StVal.vstr "x")] 10000000 90 (by decide)
  rw [h.1]
  decide

set_option maxRecDepth 1000000 in
/-- Claim C8 at a concrete rerun: feeding the saved state of a first run back
into a second run over the same feed prints `new=0 posted=0`. -/
theorem claim_C8_witness :
    (mainRun cfgCap1 [[("News A", "https://e.com/a")]] []
        (mainRun cfgCap1 [[("News A", "https://e.com/a")]] [] [] 1000 netOK).mem.state
        1000 netOK).printed = some (0, 0, false) := by
  refine (claim_C8.2 cfgCap1 [[("News A", "https://e.com/a")]] []
    (mainRun cfgCap1 [[("News A", "https://e.com/a")]] [] [] 1000 netOK).mem.state
    1000 netOK ?_ ?_ ?_).2.1
  · decide
  · decide
  · decide

/-- Claim C9 at a concrete rate-limited call: two attempts, waits the
suggested 5 units. -/
theorem claim_C9_witness :
    (post_to_slack ⟨429, some 5⟩ ⟨200, none⟩).attempts = 2 := by
  rw [(claim_C9 ⟨429, some 5⟩ ⟨200, none⟩).1]
  decide

set_option maxRecDepth 1000000 in
/-- Claim C10 at a concrete warm-start run over two entries: no posts, a
normal exit, and both keys recorded. -/
theorem claim_C10_witness :
    (mainRun ⟨"", true, 1, 90⟩ feedsAB [] [] 1000 netOK).mem.posted_count = 0 ∧
    (mainRun ⟨"", true, 1, 90⟩ feedsAB [] [] 1000 netOK).exit = ExitKind.normal ∧
    dictContains (mainRun ⟨"", true, 1, 90⟩ feedsAB [] [] 1000 netOK).mem.state
      (stable_key "News B" "https://e.com/b") = true := by
  have h := claim_C10 ⟨"", true, 1, 90⟩ feedsAB [] [] 1000 netOK rfl (by decide)
  refine ⟨h.1, h.2.2.1, ?_⟩
  exact h.2.2.2.2.2 [("News A", "https://e.com/a"), ("News B", "https://e.com/b")]
    (by decide) ("News B", "https://e.com/b") (by decide) (by decide) (by decide) (by decide)

end Bot
